import Mathlib

/-!
# Verification of the ppci iterated-register-coalescing allocator and RISC-V frame

Shallow embedding of `ppci/codegen/registerallocator.py` (the graph-coloring
register allocator) and `ppci/arch/riscv/frame.py` (the RISC-V stack frame),
together with proofs about the claims of the specification.

Python integers are modelled as `Int`/`Nat`, Python sets of small objects as
`Finset Nat` over identifiers, Python lists as `List`, and Python exceptions as
an explicit `Except` error type.  Python `set.pop()` returns an arbitrary
element; we iterate sets in sorted order, which is one legal schedule.
-/

namespace PPCI

/-- Identifier of a `Register` object (virtual or physical).  For physical
registers we identify the object with its color integer, which the spec says
is a unique small integer. -/
abbrev RegId := Nat

/-- Identifier of an interference-graph node. -/
abbrev NodeId := Nat

/-- Identifier of a register class (the Python class object `kls`). -/
abbrev RegClass := Nat

/-- Identifier of a (move) instruction object. -/
abbrev MoveId := Nat

/-! ## Deterministic iteration over finite sets

Python iterates sets in an arbitrary but fixed order; we iterate them in
ascending order, one legal schedule.  The sorting function is written with
explicit fuel so that it reduces inside the kernel. -/

/-- Ascending enumeration of a `Finset Nat` with explicit fuel. -/
def fsortAux : Nat → Finset Nat → List Nat
  | 0, _ => []
  | fuel + 1, s =>
      if h : s = ∅ then []
      else
        s.min' (Finset.nonempty_of_ne_empty h) ::
          fsortAux fuel (s.erase (s.min' (Finset.nonempty_of_ne_empty h)))

/-- Ascending enumeration of a `Finset Nat`. -/
def fsort (s : Finset Nat) : List Nat := fsortAux s.card s

theorem fsortAux_mem :
    ∀ (fuel : Nat) (s : Finset Nat), s.card ≤ fuel →
      ∀ a : Nat, (a ∈ fsortAux fuel s ↔ a ∈ s)
  | 0, s, hc, a => by
      have hs : s = ∅ := Finset.card_eq_zero.mp (Nat.le_zero.mp hc)
      rw [hs]
      simp [fsortAux]
  | fuel + 1, s, hc, a => by
      simp only [fsortAux]
      split_ifs with h
      · rw [h]
        simp
      · have hne := Finset.nonempty_of_ne_empty h
        have hmem := Finset.min'_mem s hne
        have hcard : (s.erase (s.min' hne)).card ≤ fuel := by
          rw [Finset.card_erase_of_mem hmem]
          omega
        rw [List.mem_cons, fsortAux_mem fuel _ hcard a, Finset.mem_erase]
        constructor
        · rintro (h1 | ⟨h1, h2⟩)
          · rw [h1]
            exact hmem
          · exact h2
        · intro ha
          by_cases he : a = s.min' hne
          · exact Or.inl he
          · exact Or.inr ⟨he, ha⟩

theorem mem_fsort (s : Finset Nat) (a : Nat) : a ∈ fsort s ↔ a ∈ s :=
  fsortAux_mem s.card s (le_refl _) a

theorem fsortAux_nodup :
    ∀ (fuel : Nat) (s : Finset Nat), s.card ≤ fuel → (fsortAux fuel s).Nodup
  | 0, s, _ => by simp [fsortAux]
  | fuel + 1, s, hc => by
      simp only [fsortAux]
      split_ifs with h
      · simp
      · have hne := Finset.nonempty_of_ne_empty h
        have hmem := Finset.min'_mem s hne
        have hcard : (s.erase (s.min' hne)).card ≤ fuel := by
          rw [Finset.card_erase_of_mem hmem]
          omega
        refine List.nodup_cons.mpr ⟨?_, fsortAux_nodup fuel _ hcard⟩
        rw [fsortAux_mem fuel _ hcard]
        simp

theorem fsort_nodup (s : Finset Nat) : (fsort s).Nodup :=
  fsortAux_nodup s.card s (le_refl _)

/-! ## Architecture data (`GraphColoringRegisterAllocator.__init__`) -/

/-- The read-only architecture description consumed by
`GraphColoringRegisterAllocator.__init__`: the register classes with their
register sets, the `issubclass` relation between the class objects, and the
raw `r.aliases` lists of the register descriptors. -/
structure Machine where
  classes : List RegClass
  regsOf : RegClass → Finset RegId
  subclassOf : RegClass → RegClass → Bool
  aliasRaw : RegId → Finset RegId

namespace Machine

/-- All registers of all register classes (the registers the `__init__` loop
visits). -/
def allRegs (M : Machine) : Finset RegId :=
  M.classes.foldr (fun c acc => M.regsOf c ∪ acc) ∅

/-- The alias table built by `__init__`: every visited register aliases
itself, its raw aliases, and every visited register that lists it as a raw
alias (the symmetric closure the loop performs). -/
def aliasOf (M : Machine) (r : RegId) : Finset RegId :=
  (if r ∈ M.allRegs then insert r (M.aliasRaw r) else ∅) ∪
    (M.allRegs.filter (fun r2 => r ∈ M.aliasRaw r2))

/-- `self.K[kls] = len(regs)`: the number of registers of a class. -/
def K (M : Machine) (c : RegClass) : Nat := (M.regsOf c).card

/-- `q(B, C)`: the maximal number of class-`B` registers a single class-`C`
register can block, `max(len(self.alias[r] & B_regs) for r in C_regs)`.
`Finset.sup` agrees with Python `max` on the non-empty register sets of real
architectures (Python raises on an empty class). -/
def q (M : Machine) (B C : RegClass) : Nat :=
  (M.regsOf C).sup (fun r => ((M.aliasOf r) ∩ M.regsOf B).card)

end Machine

/-! ## Interference graph

The class `InterferenceGraph` lives in `ppci/codegen/interferencegraph.py`,
which is not among the source files; it is modelled from the spec: nodes carry
`temps`, `color`, `reg_class` and `moves`; edges are symmetric and self-loops
are forbidden; masked nodes are invisible to `adjecent` iteration and to
`has_edge` but their storage persists; `combine(u, v)` merges `v` into `u`,
re-pointing `v`'s edges and temps at `u` and retiring `v`. -/

/-- One interference-graph node (spec §3 "Interference-graph node"). -/
structure IGNode where
  temps : Finset RegId
  color : Option RegId
  regClass : RegClass
  moves : Finset MoveId

/-- Modelled from the spec: the interference graph of
`ppci/codegen/interferencegraph.py` (not among the source files).  `alive` is
the node set (`combine` retires nodes), `data` the per-node storage, `edges`
the symmetric edge set, `masked` the masked set, and `owner` the
register-to-node map behind `get_node`. -/
structure IG where
  alive : Finset NodeId
  data : NodeId → IGNode
  edges : Finset (NodeId × NodeId)
  masked : Finset NodeId
  owner : RegId → NodeId

namespace IG

/-- `node.adjecent`: the visible neighbours of `n` — alive, unmasked nodes
connected to `n` by an edge. -/
def adjacent (g : IG) (n : NodeId) : Finset NodeId :=
  (g.alive \ g.masked).filter (fun m => (n, m) ∈ g.edges ∨ (m, n) ∈ g.edges)

/-- `has_edge(a, b)`: symmetric edge query; masked or retired nodes are
invisible. -/
def has_edge (g : IG) (a b : NodeId) : Bool :=
  decide (((a, b) ∈ g.edges ∨ (b, a) ∈ g.edges) ∧
    a ∈ g.alive ∧ b ∈ g.alive ∧ a ∉ g.masked ∧ b ∉ g.masked)

/-- `get_node(reg)`. -/
def get_node (g : IG) (r : RegId) : NodeId := g.owner r

/-- `mask_node(n)`. -/
def mask_node (g : IG) (n : NodeId) : IG := { g with masked := insert n g.masked }

/-- `unmask_node(n)`. -/
def unmask_node (g : IG) (n : NodeId) : IG := { g with masked := g.masked.erase n }

/-- Write a node's `color` attribute. -/
def set_color (g : IG) (n : NodeId) (c : Option RegId) : IG :=
  { g with data := fun k => if k = n then { g.data k with color := c } else g.data k }

/-- Write a node's `reg_class` attribute. -/
def set_class (g : IG) (n : NodeId) (c : RegClass) : IG :=
  { g with data := fun k => if k = n then { g.data k with regClass := c } else g.data k }

/-- `combine(u, v)`: merge `v` into `u` — `u.temps |= v.temps`,
`u.moves |= v.moves`, edges incident to `v` become incident to `u`
(deduplicated, no self-loop since no edge `u--v` pre-exists), registers owned
by `v` are re-pointed at `u`, and `v` is retired.  (The caller narrows
`u.reg_class` separately, as `registerallocator.combine` does.) -/
def combine (g : IG) (u v : NodeId) : IG :=
  let du := g.data u
  let dv := g.data v
  let vnbrs : Finset NodeId :=
    g.alive.filter (fun w => ((v, w) ∈ g.edges ∨ (w, v) ∈ g.edges) ∧ w ≠ u ∧ w ≠ v)
  { alive := g.alive.erase v
    data := fun k =>
      if k = u then { du with temps := du.temps ∪ dv.temps, moves := du.moves ∪ dv.moves }
      else g.data k
    edges := g.edges ∪ vnbrs.biUnion (fun w => {(u, w), (w, u)})
    masked := g.masked
    owner := fun r => if g.owner r = v then u else g.owner r }

end IG

/-! ## RISC-V frame (`ppci/arch/riscv/frame.py`) -/

/-- `alloc_var` state: the Python dict `self.locVars` (modelled as a map) and
`self.stacksize`.  Variable keys are identifiers of the Python objects used as
dict keys. -/
structure VarState where
  locVars : Nat → Option Nat
  stacksize : Nat

/-- `RiscvFrame.alloc_var(lvar, size)`: return the stack offset of `lvar`,
allocating a fresh slot of `size` bytes at the current `stacksize` when the
key is new. -/
def alloc_var (s : VarState) (lvar : Nat) (size : Nat) : Nat × VarState :=
  match s.locVars lvar with
  | some off => (off, s)
  | none =>
      (s.stacksize,
        { locVars := fun k => if k = lvar then some s.stacksize else s.locVars k
          stacksize := s.stacksize + size })

/-- The literal values `add_constant` accepts: Python `int`, `str` and
`bytes` (the `assert type(value) in [str, int, bytes]`).  Structural equality
of the Python values is `DecidableEq` on this type. -/
inductive ConstValue
  | int (i : Int)
  | str (s : String)
  | bytes (bs : List Nat)
deriving DecidableEq, Repr

/-- Decimal digits of a natural number, most significant first (`Nat.digits`
is little-endian). -/
def decimalDigits (k : Nat) : List Nat := (Nat.digits 10 k).reverse

/-- The decimal character of a digit. -/
def digitChar (d : Nat) : Char := Char.ofNat (48 + d)

/-- Decimal string of a natural number, mirroring Python `str(int)` on
naturals (`'{}'.format(n)`). -/
def natStr (k : Nat) : String :=
  if k = 0 then "0" else ⟨(decimalDigits k).map digitChar⟩

/-- The label `'{}_literal_{}'.format(self.name, self.literal_number)`. -/
def mkLabel (name : String) (k : Nat) : String :=
  name ++ "_literal_" ++ natStr k

/-- Constant-pool state of a `RiscvFrame`: `self.name`, `self.constants`
(ordered list of `(lab_name, value)` pairs) and `self.literal_number`. -/
structure PoolState where
  name : String
  constants : List (String × ConstValue)
  literal_number : Nat

/-- `RiscvFrame.add_constant(value)`: return the label of an equal pooled
value if one exists, else intern `value` under a fresh label built from the
frame name and the literal counter. -/
def add_constant (s : PoolState) (value : ConstValue) : String × PoolState :=
  match s.constants.find? (fun p => p.2 = value) with
  | some p => (p.1, s)
  | none =>
      let lab := mkLabel s.name s.literal_number
      (lab,
        { s with
          constants := s.constants ++ [(lab, value)]
          literal_number := s.literal_number + 1 })

/-- Instructions emitted by `litpool` (the constructors `Alignment`, `Label`,
`dcd` and `Db` used by `RiscvFrame.litpool`). -/
inductive PoolInstr
  | align (n : Nat)
  | label (l : String)
  | dcd (v : ConstValue)
  | db (b : Nat)
deriving DecidableEq, Repr

/-- The instructions `litpool`'s drain loop emits for a list of pool
entries. -/
def litpool_items : List (String × ConstValue) → List PoolInstr
  | [] => []
  | (lab, v) :: rest =>
      (PoolInstr.label lab ::
        (match v with
         | .int i => [PoolInstr.dcd (.int i)]
         | .str t => [PoolInstr.dcd (.str t)]
         | .bytes bs => bs.map PoolInstr.db ++ [PoolInstr.align 4])) ++
        litpool_items rest

/-- `RiscvFrame.litpool()`, fully iterated: the emitted instruction list and
the frame state afterwards.  The `while self.constants` loop pops entries from
the front until the pool is empty. -/
def litpool (s : PoolState) : List PoolInstr × PoolState :=
  ((if s.constants = [] then [] else PoolInstr.align 4 :: litpool_items s.constants),
    { s with constants := [] })

/-- The instructions `make_call` yields (`Sw`, `Lw`, `Add` on SP, `Bl`),
modelled from standard RISC-V semantics since `riscv/instructions.py` is not
among the source files: `Sw base src off` stores `src` at `base + off`,
`Lw base dst off` loads `dst` from `base + off`, `Add dst src imm` adds. -/
inductive CallInstr
  | sw (base : RegId) (src : RegId) (offset : Int)
  | lw (base : RegId) (dst : RegId) (offset : Int)
  | add (dst : RegId) (src : RegId) (imm : Int)
  | bl (target : String)
deriving DecidableEq, Repr

/-- The stack-pointer register id (`SP`). -/
def SP : RegId := 2

/-- The caller-save store loop of `make_call`: `i = 0`, then for each live
register yield `Sw(SP, register, i)` and decrement `i` by 4.  Returns the
instruction list and the final `i`. -/
def call_saves : List RegId → Int → List CallInstr × Int
  | [], i => ([], i)
  | r :: rest, i =>
      let p := call_saves rest (i - 4)
      (CallInstr.sw SP r i :: p.1, p.2)

/-- The restore loop of `make_call`: `i = 0`, then for each register of the
reversed live list yield `Lw(SP, register, i)` and increment `i` by 4. -/
def call_restores : List RegId → Int → List CallInstr × Int
  | [], i => ([], i)
  | r :: rest, i =>
      let p := call_restores rest (i + 4)
      (CallInstr.lw SP r i :: p.1, p.2)

/-- `RiscvFrame.make_call(vcall)`, fully iterated, as a function of the live
register list `live_regs_over(vcall)` and the callee name: stores, the first
SP adjustment, the call, the reloads over the reversed list, and the second
SP adjustment. -/
def make_call (live : List RegId) (fname : String) : List CallInstr :=
  let saves := call_saves live 0
  let restores := call_restores live.reverse 0
  saves.1 ++ [CallInstr.add SP SP saves.2, CallInstr.bl fname] ++
    restores.1 ++ [CallInstr.add SP SP restores.2]

/-- Symbolic execution of a `make_call` sequence, tracking the stack pointer
as an offset from its entry value: collects the `(register, address)` pairs of
the stores and of the loads, and the final SP offset.  Addresses are relative
to the SP value at function entry. -/
def simulate : List CallInstr → Int →
    List (RegId × Int) × List (RegId × Int) × Int
  | [], sp => ([], [], sp)
  | CallInstr.sw _ r off :: rest, sp =>
      let p := simulate rest sp
      ((r, sp + off) :: p.1, p.2.1, p.2.2)
  | CallInstr.lw _ r off :: rest, sp =>
      let p := simulate rest sp
      (p.1, (r, sp + off) :: p.2.1, p.2.2)
  | CallInstr.add _ _ imm :: rest, sp => simulate rest (sp + imm)
  | CallInstr.bl _ :: rest, sp => simulate rest sp

/-! ## The allocator (`GraphColoringRegisterAllocator`) -/

/-- An abstract machine instruction as the allocator sees it: identity,
`used_registers`, `defined_registers` and the `ismove` flag. -/
structure Instr where
  id : Nat
  uses : List RegId
  defs : List RegId
  ismove : Bool
deriving DecidableEq, Repr

instance : Inhabited Instr := ⟨⟨0, [], [], false⟩⟩

/-- The Python exceptions the allocator can raise:
`NotImplementedError('Spill not implemented')` (the spec's
`UnimplementedSpill`), the `RuntimeError` of `common_reg_class` (the spec's
`ClassMismatch`), `AssertionError` from a failing `assert`, and the
`AttributeError` of reading `.color` on `None`.  `outOfFuel` marks exhausting
the fuel of the loop model and corresponds to no Python behaviour. -/
inductive AllocError
  | unimplementedSpill
  | classMismatch
  | assertionFailure
  | attributeError
  | outOfFuel
deriving DecidableEq, Repr

/-- The phases of `alloc_frame` recorded in the run trace. -/
inductive Phase
  | simplifyStep
  | coalesceStep
  | freezeStep
  | assignColorsPhase
  | removeMovesPhase
  | applyColorsPhase
deriving DecidableEq, Repr

/-- The mutable state of `GraphColoringRegisterAllocator` during
`alloc_frame`, together with the frame's instruction list and the colors of
the `Register` objects (`reg.color`). -/
structure AState where
  M : Machine
  ig : IG
  precolored : Finset NodeId
  instructions : List Instr
  coalescedMoves : Finset MoveId
  constrainedMoves : Finset MoveId
  frozenMoves : Finset MoveId
  activeMoves : Finset MoveId
  worklistMoves : Finset MoveId
  select_stack : List NodeId
  spillWorklist : List NodeId
  freeze_worklist : List NodeId
  simplifyWorklist : List NodeId
  regColor : RegId → Option RegId

namespace AState

/-- The move instruction object behind a move id (the instruction list does
not change between `build` and `remove_redundant_moves`). -/
def findMove (s : AState) (m : MoveId) : Instr :=
  (s.instructions.find? (fun i => i.id == m)).getD default

/-- `m.used_registers[0]` of a move. -/
def srcReg (s : AState) (m : MoveId) : RegId := (s.findMove m).uses.headD 0

/-- `m.defined_registers[0]` of a move. -/
def dstReg (s : AState) (m : MoveId) : RegId := (s.findMove m).defs.headD 0

/-- `self.Node(vreg)`. -/
def Node (s : AState) (r : RegId) : NodeId := s.ig.get_node r

end AState

/-- `is_colorable(node)`: pre-colored nodes are trivially colorable, otherwise
the pq-test `sum(q(B, j.reg_class) for j in node.adjecent) < K[B]`. -/
def is_colorable (M : Machine) (g : IG) (n : NodeId) : Bool :=
  if (g.data n).color.isSome then true
  else
    decide (((g.adjacent n).sum (fun m => M.q (g.data n).regClass (g.data m).regClass))
      < M.K (g.data n).regClass)

/-- `NodeMoves(n) = n.moves & (activeMoves | worklistMoves)`. -/
def NodeMoves (s : AState) (n : NodeId) : Finset MoveId :=
  (s.ig.data n).moves ∩ (s.activeMoves ∪ s.worklistMoves)

/-- `is_move_related(n)`. -/
def is_move_related (s : AState) (n : NodeId) : Bool :=
  decide (NodeMoves s n).Nonempty

/-- One inner iteration of `EnableMoves`: if `m` is active, re-enable it onto
`worklistMoves`. -/
def enable_one (s : AState) (m : MoveId) : AState :=
  if m ∈ s.activeMoves then
    { s with activeMoves := s.activeMoves.erase m
             worklistMoves := insert m s.worklistMoves }
  else s

/-- `EnableMoves(nodes)`: for every node, re-enable each of its active moves.
Sets are iterated in sorted order (one legal schedule of Python's set
iteration). -/
def EnableMoves (s : AState) (nodes : Finset NodeId) : AState :=
  (fsort nodes).foldl
    (fun s' nd => (fsort (NodeMoves s' nd)).foldl enable_one s') s

/-- `decrement_degree(m)`: when a spill-listed node has become trivially
colorable, enable the moves of it and its neighbours and move it to the
freeze or simplify worklist. -/
def decrement_degree (s : AState) (m : NodeId) : AState :=
  if m ∈ s.spillWorklist ∧ is_colorable s.M s.ig m then
    let s1 := EnableMoves s ({m} ∪ s.ig.adjacent m)
    let s2 := { s1 with spillWorklist := s1.spillWorklist.erase m }
    if is_move_related s2 m then
      { s2 with freeze_worklist := s2.freeze_worklist ++ [m] }
    else
      { s2 with simplifyWorklist := s2.simplifyWorklist ++ [m] }
  else s

/-- `simplify()`: pop the last node of `simplifyWorklist`, push it onto the
select stack, mask it, and run `decrement_degree` over its visible
neighbours. -/
def simplify (s : AState) : AState :=
  match s.simplifyWorklist.getLast? with
  | none => s
  | some n =>
      let s1 := { s with simplifyWorklist := s.simplifyWorklist.dropLast
                         select_stack := s.select_stack ++ [n] }
      let s2 := { s1 with ig := s1.ig.mask_node n }
      (fsort (s2.ig.adjacent n)).foldl decrement_degree s2

/-- `common_reg_class(u, v)`: the smaller class by `issubclass`, or the
`RuntimeError` (`ClassMismatch`) when the classes are incomparable. -/
def common_reg_class (M : Machine) (a b : RegClass) : Except AllocError RegClass :=
  if M.subclassOf a b then .ok a
  else if M.subclassOf b a then .ok b
  else .error .classMismatch

/-- `fits_class(u, v)`: `issubclass(v, u)`. -/
def fits_class (M : Machine) (u v : RegClass) : Bool := M.subclassOf v u

/-- `ok(t, r)`: `t.is_colored or is_colorable(t) or has_edge(t, r)`. -/
def ok_test (M : Machine) (g : IG) (t r : NodeId) : Bool :=
  (g.data t).color.isSome || is_colorable M g t || g.has_edge t r

/-- `conservative(u, v)`: the Briggs test over the common register class
(whose computation can raise `ClassMismatch`). -/
def conservative (M : Machine) (g : IG) (u v : NodeId) : Except AllocError Bool := do
  let nodes := g.adjacent u ∪ g.adjacent v
  let k := (nodes.filter (fun n => ¬ is_colorable M g n)).card
  let cc ← common_reg_class M (g.data u).regClass (g.data v).regClass
  return decide (k < M.K cc)

/-- `add_worklist(u)`: a non-pre-colored, non-move-related, trivially
colorable node moves from the freeze worklist to the simplify worklist. -/
def add_worklist (s : AState) (u : NodeId) : AState :=
  if u ∉ s.precolored ∧ ¬ is_move_related s u ∧ is_colorable s.M s.ig u then
    { s with freeze_worklist := s.freeze_worklist.erase u
             simplifyWorklist := s.simplifyWorklist ++ [u] }
  else s

/-- `combine(u, v)` of the allocator: move `v` out of its worklist, merge the
graph nodes, narrow `u.reg_class` to the common class, re-examine `u`'s
neighbours, and push `u` to the spill worklist if it stopped being trivially
colorable. -/
def combine (s : AState) (u v : NodeId) : Except AllocError AState := do
  let s1 :=
    if v ∈ s.freeze_worklist then
      { s with freeze_worklist := s.freeze_worklist.erase v }
    else
      { s with spillWorklist := s.spillWorklist.erase v }
  let s2 := { s1 with ig := s1.ig.combine u v }
  let cc ← common_reg_class s.M (s2.ig.data u).regClass (s2.ig.data v).regClass
  let s3 := { s2 with ig := s2.ig.set_class u cc }
  let s4 := (fsort (s3.ig.adjacent u)).foldl decrement_degree s3
  if ¬ is_colorable s4.M s4.ig u ∧ u ∈ s4.freeze_worklist then
    return { s4 with freeze_worklist := s4.freeze_worklist.erase u
                     spillWorklist := s4.spillWorklist ++ [u] }
  else
    return s4

/-- The combined George/Briggs condition of `coalesc`
(`(u.is_colored and fits_class and all ok) or ((not u.is_colored) and
conservative)`); Python's `or`/`and` short-circuit, so `conservative` (which
can raise) only runs when `u` is not pre-colored. -/
def coalesc_cond (s : AState) (u v : NodeId) : Except AllocError Bool :=
  if (s.ig.data u).color.isSome then
    .ok (fits_class s.M (s.ig.data v).regClass (s.ig.data u).regClass &&
      decide (∀ t ∈ s.ig.adjacent v, ok_test s.M s.ig t u = true))
  else
    conservative s.M s.ig u v

/-- `coalesc()`: pop a move, orient its endpoints so that `u` is pre-colored
if either endpoint is, and classify it as coalesced, constrained, combined or
active.  The popped move is the smallest id (one legal schedule of Python's
`set.pop`). -/
def coalesc (s : AState) : Except AllocError AState :=
  match (fsort s.worklistMoves).head? with
  | none => .ok s
  | some m =>
      let s0 := { s with worklistMoves := s.worklistMoves.erase m }
      let x := s.Node (s.dstReg m)
      let y := s.Node (s.srcReg m)
      let u := if y ∈ s.precolored then y else x
      let v := if y ∈ s.precolored then x else y
      if u = v then
        .ok (add_worklist { s0 with coalescedMoves := insert m s0.coalescedMoves } u)
      else if v ∈ s0.precolored ∨ s0.ig.has_edge u v then
        .ok (add_worklist
          (add_worklist { s0 with constrainedMoves := insert m s0.constrainedMoves } u) v)
      else do
        let c ← coalesc_cond s0 u v
        if c then
          let s1 := { s0 with coalescedMoves := insert m s0.coalescedMoves }
          let s2 ← combine s1 u v
          return add_worklist s2 u
        else
          return { s0 with activeMoves := insert m s0.activeMoves }

/-- One iteration of `freeze`'s move loop for move `m` of the frozen node
`u`: drop `m` from the active or worklist moves, freeze it, and move the
other endpoint to the simplify worklist when it stopped being
move-related. -/
def freeze_one (s : AState) (u : NodeId) (m : MoveId) : AState :=
  let s1 :=
    if m ∈ s.activeMoves then { s with activeMoves := s.activeMoves.erase m }
    else { s with worklistMoves := s.worklistMoves.erase m }
  let s2 := { s1 with frozenMoves := insert m s1.frozenMoves }
  let src := s2.Node (s2.srcReg m)
  let dst := s2.Node (s2.dstReg m)
  let v := if u = dst then src else dst
  if v ∉ s2.precolored ∧ ¬ is_move_related s2 v ∧ is_colorable s2.M s2.ig v then
    { s2 with freeze_worklist := s2.freeze_worklist.erase v
              simplifyWorklist := s2.simplifyWorklist ++ [v] }
  else s2

/-- `freeze()`: pop the last node of the freeze worklist, push it to the
simplify worklist, and freeze every move of `NodeMoves(u)` (snapshot taken on
entry, iterated in sorted order). -/
def freeze (s : AState) : AState :=
  match s.freeze_worklist.getLast? with
  | none => s
  | some u =>
      let s1 := { s with freeze_worklist := s.freeze_worklist.dropLast
                         simplifyWorklist := s.simplifyWorklist ++ [u] }
      (fsort (NodeMoves s1 u)).foldl (fun s' m => freeze_one s' u m) s1

/-- The dispatch of `alloc_frame`'s main loop: `simplify` when the simplify
worklist has work, else `coalesc`, else `freeze`, else the fatal unimplemented
spill when the spill worklist is non-empty, else exit (`.ok none`). -/
def loopStep (s : AState) : Except AllocError (Option (Phase × AState)) :=
  if s.simplifyWorklist ≠ [] then .ok (some (.simplifyStep, simplify s))
  else if s.worklistMoves ≠ ∅ then (coalesc s).map (fun s' => some (.coalesceStep, s'))
  else if s.freeze_worklist ≠ [] then .ok (some (.freezeStep, freeze s))
  else if s.spillWorklist ≠ [] then .error .unimplementedSpill
  else .ok none

/-- The main loop of `alloc_frame`, with fuel, returning the trace of steps
taken and the state at exit. -/
def runLoop : Nat → AState → Except AllocError (List Phase × AState)
  | 0, _ => .error .outOfFuel
  | fuel + 1, s =>
      match loopStep s with
      | .error e => .error e
      | .ok none => .ok ([], s)
      | .ok (some (ph, s')) =>
          (runLoop fuel s').map (fun p => (ph :: p.1, p.2))

/-- Color selection for one popped node of `assign_colors`: unmask it, gather
the aliases of the colors of its visible neighbours, and give it a free
register of its class; the `assert ok_regs` fails (AssertionError) when no
register is free.  `first` picks the smallest free register (one legal result
of `next(iter(set))`). -/
def select_one (M : Machine) (g : IG) (n : NodeId) : Except AllocError IG :=
  let g1 := g.unmask_node n
  let takenregs : Finset RegId :=
    (g1.adjacent n).biUnion (fun m =>
      match (g1.data m).color with
      | some c => M.aliasOf c
      | none => ∅)
  let ok_regs := M.regsOf (g1.data n).regClass \ takenregs
  if ok_regs = ∅ then .error .assertionFailure
  else .ok (g1.set_color n (some ((fsort ok_regs).headD 0)))

/-- The loop of `assign_colors` over the pop order of the select stack (the
first list element is popped first). -/
def assign_loop (M : Machine) : List NodeId → IG → Except AllocError IG
  | [], g => .ok g
  | n :: rest, g => do
      let g' ← select_one M g n
      assign_loop M rest g'

/-- `assign_colors()`: pop the select stack in LIFO order (last pushed node
first) and color each popped node. -/
def assign_colors (s : AState) : Except AllocError AState :=
  (assign_loop s.M s.select_stack.reverse s.ig).map
    (fun g => { s with ig := g, select_stack := [] })

/-- `remove_redundant_moves()`: `self.frame.instructions.remove(move)` for
every coalesced move; `list.remove` deletes the (unique) instruction object,
modelled by erasing the first instruction with the move's id. -/
def remove_redundant_moves (s : AState) : AState :=
  { s with
      instructions :=
        (fsort s.coalescedMoves).foldl
          (fun l mid => l.eraseP (fun i => i.id == mid)) s.instructions }

/-- `apply_colors` for one node: for each register it represents, a
pre-colored register is asserted to already carry the node's color and an
uncolored one receives it (`reg.set_color(node.color.color)`); reading
`node.color.color` of an uncolored node raises AttributeError. -/
def apply_node (g : IG) (rc : RegId → Option RegId) (nd : NodeId) :
    Except AllocError (RegId → Option RegId) :=
  (fsort (g.data nd).temps).foldlM
    (fun rc' r =>
      match (g.data nd).color with
      | none => .error .attributeError
      | some c =>
          match rc' r with
          | some c' => if c' = c then .ok rc' else .error .assertionFailure
          | none => .ok (fun r' => if r' = r then some c else rc' r'))
    rc

/-- `apply_colors()`: walk every live node and write its color onto every
register it represents. -/
def apply_colors (s : AState) : Except AllocError AState :=
  ((fsort s.ig.alive).foldlM (apply_node s.ig) s.regColor).map
    (fun rc => { s with regColor := rc })

/-- `alloc_frame` from the top of the coloring loop: iterate the worklist
steps, then `assign_colors`, `remove_redundant_moves` and `apply_colors`, in
that order, extending the trace with the three phases. -/
def alloc_frame (fuel : Nat) (s : AState) : Except AllocError (List Phase × AState) := do
  let p ← runLoop fuel s
  let s2 ← assign_colors p.2
  let s3 := remove_redundant_moves s2
  let s4 ← apply_colors s3
  return (p.1 ++ [.assignColorsPhase, .removeMovesPhase, .applyColorsPhase], s4)

/-- Attach a move to the nodes of both endpoints (`build`'s move loop). -/
def attach_move (g : IG) (mv : Instr) : IG :=
  let srcN := g.get_node (mv.uses.headD 0)
  let dstN := g.get_node (mv.defs.headD 0)
  let g1 :=
    { g with
        data := fun k =>
          if k = srcN then { g.data k with moves := insert mv.id (g.data k).moves }
          else g.data k }
  { g1 with
      data := fun k =>
        if k = dstN then { g1.data k with moves := insert mv.id (g1.data k).moves }
        else g1.data k }

/-- The state after `init_data`, the tail of `build` and `makeWorkList`,
taking the interference graph produced by the liveness analysis as input (the
`FlowGraph`/`InterferenceGraph` construction lives in files outside this
source set): move sets emptied, moves attached to their endpoint nodes and
filling `worklistMoves`, nodes split into pre-colored and initial, and the
initial nodes drained into the spill, freeze and simplify worklists (in
sorted order, one legal schedule of `set.pop`). -/
def initState (M : Machine) (g0 : IG) (instrs : List Instr)
    (rc : RegId → Option RegId) : AState :=
  let moves := instrs.filter (fun i => i.ismove)
  let g := moves.foldl attach_move g0
  let precolored := g.alive.filter (fun n => (g.data n).color.isSome)
  let initial := g.alive \ precolored
  let base : AState :=
    { M := M, ig := g, precolored := precolored, instructions := instrs
      coalescedMoves := ∅, constrainedMoves := ∅, frozenMoves := ∅
      activeMoves := ∅
      worklistMoves := (moves.map (fun i => i.id)).toFinset
      select_stack := [], spillWorklist := [], freeze_worklist := []
      simplifyWorklist := [], regColor := rc }
  (fsort initial).foldl
    (fun s n =>
      if ¬ is_colorable s.M s.ig n then
        { s with spillWorklist := s.spillWorklist ++ [n] }
      else if is_move_related s n then
        { s with freeze_worklist := s.freeze_worklist ++ [n] }
      else
        { s with simplifyWorklist := s.simplifyWorklist ++ [n] })
    base

/-! ## Lemmas about labels -/

theorem digitChar_inj {d d' : Nat} (hd : d < 10) (hd' : d' < 10)
    (h : digitChar d = digitChar d') : d = d' := by
  interval_cases d <;> interval_cases d' <;> first | rfl | exact absurd h (by decide)

theorem map_digitChar_inj :
    ∀ {l l' : List Nat}, (∀ d ∈ l, d < 10) → (∀ d ∈ l', d < 10) →
      l.map digitChar = l'.map digitChar → l = l'
  | [], [], _, _, _ => rfl
  | [], _ :: _, _, _, h => by simp at h
  | _ :: _, [], _, _, h => by simp at h
  | a :: t, a' :: t', hb, hb', h => by
      simp only [List.map_cons, List.cons.injEq] at h
      have ha : a = a' := digitChar_inj (hb a (by simp)) (hb' a' (by simp)) h.1
      have ht : t = t' :=
        map_digitChar_inj (fun d hd => hb d (by simp [hd]))
          (fun d hd => hb' d (by simp [hd])) h.2
      rw [ha, ht]

theorem decimalDigits_lt {k d : Nat} (h : d ∈ decimalDigits k) : d < 10 := by
  rw [decimalDigits, List.mem_reverse] at h
  exact Nat.digits_lt_base (by norm_num) h

theorem natStr_inj {k k' : Nat} (h : natStr k = natStr k') : k = k' := by
  unfold natStr at h
  by_cases hk : k = 0 <;> by_cases hk' : k' = 0
  · rw [hk, hk']
  · exfalso
    rw [if_pos hk, if_neg hk'] at h
    have hdata : ['0'] = (decimalDigits k').map digitChar := by
      have := congrArg String.data h
      simpa using this
    have h1 : decimalDigits k' = [0] := by
      rcases hl : decimalDigits k' with _ | ⟨a, t⟩
      · rw [hl] at hdata; simp at hdata
      · rw [hl] at hdata
        rcases t with _ | ⟨b, t2⟩
        · simp only [List.map_cons, List.map_nil, List.cons.injEq] at hdata
          have ha : a < 10 := decimalDigits_lt (by rw [hl]; simp)
          have : (0 : Nat) = a := digitChar_inj (by norm_num) ha (by simpa using hdata.1)
          simp [← this]
        · simp at hdata
    have h2 : Nat.digits 10 k' = [0] := by
      have := congrArg List.reverse h1
      simpa [decimalDigits] using this
    have h3 := Nat.ofDigits_digits 10 k'
    rw [h2] at h3
    simp [Nat.ofDigits] at h3
    exact hk' h3.symm
  · exfalso
    rw [if_neg hk, if_pos hk'] at h
    have hdata : (decimalDigits k).map digitChar = ['0'] := by
      have := congrArg String.data h
      simpa using this
    have h1 : decimalDigits k = [0] := by
      rcases hl : decimalDigits k with _ | ⟨a, t⟩
      · rw [hl] at hdata; simp at hdata
      · rw [hl] at hdata
        rcases t with _ | ⟨b, t2⟩
        · simp only [List.map_cons, List.map_nil, List.cons.injEq] at hdata
          have ha : a < 10 := decimalDigits_lt (by rw [hl]; simp)
          have : a = 0 := digitChar_inj ha (by norm_num) (by simpa using hdata.1)
          simp [this]
        · simp at hdata
    have h2 : Nat.digits 10 k = [0] := by
      have := congrArg List.reverse h1
      simpa [decimalDigits] using this
    have h3 := Nat.ofDigits_digits 10 k
    rw [h2] at h3
    simp [Nat.ofDigits] at h3
    exact hk h3.symm
  · rw [if_neg hk, if_neg hk'] at h
    have hdata : (decimalDigits k).map digitChar = (decimalDigits k').map digitChar := by
      injection h
    have h1 : decimalDigits k = decimalDigits k' :=
      map_digitChar_inj (fun _ hd => decimalDigits_lt hd)
        (fun _ hd => decimalDigits_lt hd) hdata
    have h2 : Nat.digits 10 k = Nat.digits 10 k' := by
      have := congrArg List.reverse h1
      simpa [decimalDigits] using this
    exact Nat.digits.injective 10 h2

theorem mkLabel_inj {name : String} {k k' : Nat}
    (h : mkLabel name k = mkLabel name k') : k = k' := by
  unfold mkLabel at h
  have h2 : (name ++ "_literal_").data ++ (natStr k).data
      = (name ++ "_literal_").data ++ (natStr k').data := by
    have := congrArg String.data h
    simpa [String.data_append, List.append_assoc] using this
  exact natStr_inj (String.ext (List.append_cancel_left h2))

/-- If `l.map f` has no duplicates, `f` is injective on the members of
`l`. -/
theorem map_nodup_inj {α β : Type} {f : α → β} :
    ∀ {l : List α}, (l.map f).Nodup → ∀ {a b : α}, a ∈ l → b ∈ l → f a = f b → a = b
  | [], _, _, _, ha, _, _ => absurd ha (by simp)
  | x :: t, hn, a, b, ha, hb, hf => by
      simp only [List.map_cons, List.nodup_cons] at hn
      rcases List.mem_cons.mp ha with ha1 | ha2 <;>
        rcases List.mem_cons.mp hb with hb1 | hb2
      · rw [ha1, hb1]
      · exact absurd (by rw [ha1] at hf; rw [hf]; exact List.mem_map_of_mem f hb2) hn.1
      · exact absurd (by rw [hb1] at hf; rw [← hf]; exact List.mem_map_of_mem f ha2) hn.1
      · exact map_nodup_inj hn.2 ha2 hb2 hf

/-- Well-formedness of a constant pool: every pooled label was built from the
frame name and a counter below `literal_number`, the labels are pairwise
distinct, and the pooled values are pairwise distinct (interning). -/
def PoolInv (s : PoolState) : Prop :=
  (∀ p ∈ s.constants, ∃ k, k < s.literal_number ∧ p.1 = mkLabel s.name k) ∧
  (s.constants.map Prod.fst).Nodup ∧
  (s.constants.map Prod.snd).Nodup

/-! ## Claim C7: `alloc_var` -/

/-- C7: the first `alloc_var(key, size)` call returns the current stack size,
increases the stack size by `size` and records the offset under the key; a
call whose key is already recorded returns the recorded offset and changes
nothing; and calls with other keys do not disturb a recorded offset — so every
repeated call with the same key returns the offset of the first call and
leaves the stack size unchanged. -/
theorem alloc_var_spec :
    (∀ s lvar size, s.locVars lvar = none →
      (alloc_var s lvar size).1 = s.stacksize ∧
      (alloc_var s lvar size).2.stacksize = s.stacksize + size ∧
      (alloc_var s lvar size).2.locVars lvar = some s.stacksize) ∧
    (∀ s lvar size off, s.locVars lvar = some off →
      alloc_var s lvar size = (off, s)) ∧
    (∀ s lvar off k size, s.locVars lvar = some off →
      (alloc_var s k size).2.locVars lvar = some off) := by
  refine ⟨?_, ?_, ?_⟩
  · intro s lvar size h
    simp [alloc_var, h]
  · intro s lvar size off h
    simp [alloc_var, h]
  · intro s lvar off k size h
    rcases hk : s.locVars k with _ | off2
    · by_cases he : lvar = k
      · rw [he] at h; rw [he]; simp [alloc_var, hk, h] at h ⊢
      · simp [alloc_var, hk, he, h]
    · simp [alloc_var, hk, h]

/-- C7 witness: on the empty frame, allocating key 1 with size 8 yields
offset 0 and stack size 8, and a repeated call with the same key returns
offset 0 again without growing the stack. -/
theorem alloc_var_spec_witness :
    (alloc_var ⟨fun _ => none, 0⟩ 1 8).1 = 0 ∧
    (alloc_var ⟨fun _ => none, 0⟩ 1 8).2.stacksize = 8 ∧
    alloc_var (alloc_var ⟨fun _ => none, 0⟩ 1 8).2 1 4 =
      ((0 : Nat), (alloc_var ⟨fun _ => none, 0⟩ 1 8).2) := by
  have h1 := alloc_var_spec.1 ⟨fun _ => none, 0⟩ 1 8 rfl
  have h2 := alloc_var_spec.2.1 (alloc_var ⟨fun _ => none, 0⟩ 1 8).2 1 4 0
    (by rw [h1.2.2])
  exact ⟨h1.1, h1.2.1, h2⟩

/-! ## Claim C8: `add_constant` -/

/-- C8: `add_constant` interns structurally.  The empty pool is well formed
and `add_constant` preserves well-formedness; on a pool holding an equal
value the pooled label is returned and the state is unchanged; on a fresh
value the label built from the frame name and the counter is returned, the
entry is appended and the counter strictly increases; and in a well-formed
pool distinct entries always carry distinct labels. -/
theorem add_constant_spec :
    (∀ name, PoolInv ⟨name, [], 0⟩) ∧
    (∀ s v, PoolInv s → PoolInv (add_constant s v).2) ∧
    (∀ s v p, PoolInv s → p ∈ s.constants → p.2 = v →
      add_constant s v = (p.1, s)) ∧
    (∀ s v, (∀ p ∈ s.constants, p.2 ≠ v) →
      add_constant s v =
        (mkLabel s.name s.literal_number,
          { s with
              constants := s.constants ++ [(mkLabel s.name s.literal_number, v)]
              literal_number := s.literal_number + 1 })) ∧
    (∀ s p1 p2, PoolInv s → p1 ∈ s.constants → p2 ∈ s.constants →
      p1.1 = p2.1 → p1 = p2) := by
  have hfound : ∀ s v p, PoolInv s → p ∈ s.constants → p.2 = v →
      add_constant s v = (p.1, s) := by
    intro s v p hinv hp hv
    have hsome : (s.constants.find? (fun q => q.2 = v)).isSome := by
      rw [List.find?_isSome]
      exact ⟨p, hp, by simp [hv]⟩
    rcases hq : s.constants.find? (fun q => q.2 = v) with _ | q
    · rw [hq] at hsome; simp at hsome
    · have hqmem := List.mem_of_find?_eq_some hq
      have hqval : q.2 = v := by
        have := List.find?_some hq
        simpa using this
      have : q = p := map_nodup_inj hinv.2.2 hqmem hp (by rw [hqval, hv])
      simp [add_constant, hq, this]
  have hfresh : ∀ s v, (∀ p ∈ s.constants, p.2 ≠ v) →
      add_constant s v =
        (mkLabel s.name s.literal_number,
          { s with
              constants := s.constants ++ [(mkLabel s.name s.literal_number, v)]
              literal_number := s.literal_number + 1 }) := by
    intro s v h
    have hnone : s.constants.find? (fun q => q.2 = v) = none := by
      rw [List.find?_eq_none]
      intro p hp
      simp [h p hp]
    simp [add_constant, hnone]
  refine ⟨?_, ?_, hfound, hfresh, ?_⟩
  · intro name
    refine ⟨?_, ?_, ?_⟩ <;> simp
  · intro s v hinv
    rcases hq : s.constants.find? (fun q => q.2 = v) with _ | q
    · have hnov : ∀ p ∈ s.constants, p.2 ≠ v := by
        rw [List.find?_eq_none] at hq
        intro p hp
        have := hq p hp
        simpa using this
      rw [hfresh s v hnov]
      dsimp only
      refine ⟨?_, ?_, ?_⟩
      · intro p hp
        rcases List.mem_append.mp hp with hold | hnew
        · obtain ⟨k, hk, hl⟩ := hinv.1 p hold
          refine ⟨k, ?_, hl⟩
          show k < s.literal_number + 1
          omega
        · refine ⟨s.literal_number, ?_, ?_⟩
          · show s.literal_number < s.literal_number + 1
            omega
          · simp at hnew
            rw [hnew]
      · have hnotin : mkLabel s.name s.literal_number ∉ s.constants.map Prod.fst := by
          intro hmem
          obtain ⟨p, hp, hl⟩ := List.mem_map.mp hmem
          obtain ⟨k, hk, hl2⟩ := hinv.1 p hp
          rw [hl2] at hl
          have := mkLabel_inj hl
          omega
        rw [List.map_append, List.nodup_append]
        refine ⟨hinv.2.1, List.nodup_singleton _, ?_⟩
        intro a ha hb
        simp only [List.map_cons, List.map_nil, List.mem_singleton] at hb
        rw [hb] at ha
        exact hnotin ha
      · have hnotin : v ∉ s.constants.map Prod.snd := by
          intro hmem
          obtain ⟨p, hp, hl⟩ := List.mem_map.mp hmem
          exact hnov p hp hl
        rw [List.map_append, List.nodup_append]
        refine ⟨hinv.2.2, List.nodup_singleton _, ?_⟩
        intro a ha hb
        simp only [List.map_cons, List.map_nil, List.mem_singleton] at hb
        rw [hb] at ha
        exact hnotin ha
    · have hqmem := List.mem_of_find?_eq_some hq
      have hqval : q.2 = v := by
        have := List.find?_some hq
        simpa using this
      rw [hfound s v q hinv hqmem hqval]
      exact hinv
  · intro s p1 p2 hinv h1 h2 heq
    exact map_nodup_inj hinv.2.1 h1 h2 heq

/-- C8 witness: on a concrete pool, interning the integer 3 twice returns the
label of the first call and leaves the pool untouched, while interning a
different value appends a fresh label. -/
theorem add_constant_spec_witness :
    add_constant (add_constant ⟨"fn", [], 0⟩ (ConstValue.int 3)).2 (ConstValue.int 3) =
      (mkLabel "fn" 0, (add_constant ⟨"fn", [], 0⟩ (ConstValue.int 3)).2) ∧
    (add_constant (add_constant ⟨"fn", [], 0⟩ (ConstValue.int 3)).2
      (ConstValue.int 4)).1 = mkLabel "fn" 1 := by
  have h0 := add_constant_spec.1 "fn"
  have h1 := add_constant_spec.2.1 ⟨"fn", [], 0⟩ (ConstValue.int 3) h0
  have hs : (add_constant ⟨"fn", [], 0⟩ (ConstValue.int 3)).2 =
      ⟨"fn", [(mkLabel "fn" 0, ConstValue.int 3)], 1⟩ := by
    rw [add_constant_spec.2.2.2.1 ⟨"fn", [], 0⟩ (ConstValue.int 3) (by simp)]
    rfl
  constructor
  · have := add_constant_spec.2.2.1 (add_constant ⟨"fn", [], 0⟩ (ConstValue.int 3)).2
      (ConstValue.int 3) (mkLabel "fn" 0, ConstValue.int 3) h1 (by rw [hs]; simp) rfl
    exact this
  · have := add_constant_spec.2.2.2.1 (add_constant ⟨"fn", [], 0⟩ (ConstValue.int 3)).2
      (ConstValue.int 4) (by rw [hs]; simp)
    rw [this, hs]


/-! ## Claim C9: `make_call` -/

theorem call_saves_fst :
    ∀ (l : List RegId) (i : Int),
      (call_saves l i).2 = i - 4 * l.length
  | [], _ => by simp [call_saves]
  | r :: t, i => by
      have := call_saves_fst t (i - 4)
      simp only [call_saves, List.length_cons]
      rw [this]
      push_cast
      ring

theorem call_restores_fst :
    ∀ (l : List RegId) (i : Int),
      (call_restores l i).2 = i + 4 * l.length
  | [], _ => by simp [call_restores]
  | r :: t, i => by
      have := call_restores_fst t (i + 4)
      simp only [call_restores, List.length_cons]
      rw [this]
      push_cast
      ring

theorem simulate_saves_sp :
    ∀ (l : List RegId) (i : Int) (rest : List CallInstr) (sp : Int),
      (simulate ((call_saves l i).1 ++ rest) sp).2.2 = (simulate rest sp).2.2
  | [], _, _, _ => rfl
  | r :: t, i, rest, sp => by
      show (simulate (CallInstr.sw SP r i :: ((call_saves t (i - 4)).1 ++ rest)) sp).2.2 = _
      simp only [simulate]
      exact simulate_saves_sp t (i - 4) rest sp

theorem simulate_restores_sp :
    ∀ (l : List RegId) (i : Int) (rest : List CallInstr) (sp : Int),
      (simulate ((call_restores l i).1 ++ rest) sp).2.2 = (simulate rest sp).2.2
  | [], _, _, _ => rfl
  | r :: t, i, rest, sp => by
      show (simulate (CallInstr.lw SP r i :: ((call_restores t (i + 4)).1 ++ rest)) sp).2.2 = _
      simp only [simulate]
      exact simulate_restores_sp t (i + 4) rest sp

/-- C9: the two stack-pointer adjustments of `make_call` do cancel (zero net
SP change), and one store/reload per live register is emitted — but the
reload addresses are shifted: with one live register it is stored at
`[SP + 0]` and reloaded from `[SP - 4]`; with two live registers they are
stored at `[SP]`, `[SP - 4]` and reloaded from `[SP - 8]`, `[SP - 4]`.  Every
register is reloaded from 4 bytes below the slot it was stored to, refuting
the same-location part of the claim. -/
theorem make_call_wrong_reload_slot :
    (∀ (live : List RegId) (fname : String),
      (simulate (make_call live fname) 0).2.2 = 0) ∧
    simulate (make_call [9] "f") 0 = ([(9, 0)], [(9, -4)], 0) ∧
    simulate (make_call [9, 18] "f") 0 =
      ([(9, 0), (18, -4)], [(18, -8), (9, -4)], 0) := by
  refine ⟨?_, by decide, by decide⟩
  intro live fname
  unfold make_call
  simp only [List.append_assoc, List.cons_append, List.nil_append]
  rw [simulate_saves_sp]
  simp only [simulate]
  rw [simulate_restores_sp]
  simp only [simulate]
  rw [call_saves_fst, call_restores_fst]
  simp [List.length_reverse]

/-! ## Claim C10: `litpool` -/

/-- C10: fully iterating `litpool` empties the constant pool and keeps the
literal counter, so a later `add_constant` with a previously interned value
does not find it: it creates and returns a fresh label, distinct from the one
the value had before the pool was emitted. -/
theorem litpool_spec :
    (∀ s, (litpool s).2.constants = [] ∧ (litpool s).2.name = s.name ∧
      (litpool s).2.literal_number = s.literal_number) ∧
    (∀ s lab v, PoolInv s → (lab, v) ∈ s.constants →
      (add_constant (litpool s).2 v).1 = mkLabel s.name s.literal_number ∧
      (add_constant (litpool s).2 v).1 ≠ lab ∧
      (add_constant (litpool s).2 v).2.constants =
        [(mkLabel s.name s.literal_number, v)]) := by
  refine ⟨fun s => ⟨rfl, rfl, rfl⟩, ?_⟩
  intro s lab v hinv hmem
  have hempty : (litpool s).2.constants = [] := rfl
  have hfresh : add_constant (litpool s).2 v =
      (mkLabel s.name s.literal_number,
        { (litpool s).2 with
            constants := (litpool s).2.constants ++
              [(mkLabel s.name s.literal_number, v)]
            literal_number := s.literal_number + 1 }) := by
    have hnone : (litpool s).2.constants.find? (fun q => q.2 = v) = none := by
      rw [hempty]
      rfl
    simp [add_constant, hnone]
    exact ⟨rfl, rfl⟩
  obtain ⟨k, hk, hlabk⟩ := hinv.1 (lab, v) hmem
  have hlab : lab = mkLabel s.name k := hlabk
  refine ⟨by rw [hfresh], ?_, by rw [hfresh]; simp; exact hempty⟩
  rw [hfresh]
  intro hcontra
  have hc2 : mkLabel s.name s.literal_number = mkLabel s.name k := by
    rw [← hlab]
    exact hcontra
  have := mkLabel_inj hc2
  omega

/-- C10 witness: a concrete pool holding the integer 3 under label
`fn_literal_0`; after `litpool` drains it, re-adding 3 yields the distinct
fresh label `fn_literal_1`. -/
theorem litpool_spec_witness :
    (add_constant (litpool ⟨"fn", [(mkLabel "fn" 0, ConstValue.int 3)], 1⟩).2
        (ConstValue.int 3)).1 = mkLabel "fn" 1 ∧
    (add_constant (litpool ⟨"fn", [(mkLabel "fn" 0, ConstValue.int 3)], 1⟩).2
        (ConstValue.int 3)).1 ≠ mkLabel "fn" 0 := by
  have hinv : PoolInv ⟨"fn", [(mkLabel "fn" 0, ConstValue.int 3)], 1⟩ := by
    refine ⟨?_, by simp, by simp⟩
    intro p hp
    simp only [List.mem_singleton] at hp
    refine ⟨0, Nat.zero_lt_one, ?_⟩
    rw [hp]
  have h := litpool_spec.2 ⟨"fn", [(mkLabel "fn" 0, ConstValue.int 3)], 1⟩
    (mkLabel "fn" 0) (ConstValue.int 3) hinv (by simp)
  exact ⟨h.1, h.2.1⟩

/-! ## Claim C2: `q` and `is_colorable` -/

/-- C2: `is_colorable(n)` holds iff `n` is pre-colored or the pq-test sum
`sum(q(B, m.reg_class) for m in n.adjecent)` is strictly below `K(B)`; and
with a single register class and no aliasing the test is exactly
`degree(n) < K`. -/
theorem is_colorable_spec :
    (∀ (M : Machine) (g : IG) (n : NodeId),
      is_colorable M g n = true ↔
        ((g.data n).color.isSome ∨
          (g.adjacent n).sum
              (fun m => M.q (g.data n).regClass (g.data m).regClass) <
            M.K (g.data n).regClass)) ∧
    (∀ (M : Machine) (g : IG) (n : NodeId) (c : RegClass),
      M.classes = [c] → (∀ r, M.aliasRaw r = ∅) →
      (g.data n).regClass = c →
      (∀ m ∈ g.adjacent n, (g.data m).regClass = c) →
      (g.data n).color = none → (M.regsOf c).Nonempty →
      (is_colorable M g n = true ↔ (g.adjacent n).card < M.K c)) := by
  have part1 : ∀ (M : Machine) (g : IG) (n : NodeId),
      is_colorable M g n = true ↔
        ((g.data n).color.isSome ∨
          (g.adjacent n).sum
              (fun m => M.q (g.data n).regClass (g.data m).regClass) <
            M.K (g.data n).regClass) := by
    intro M g n
    by_cases h : (g.data n).color.isSome <;> simp [is_colorable, h]
  refine ⟨part1, ?_⟩
  intro M g n c hcl hal hnc hmc hcolor hne
  have hall : M.allRegs = M.regsOf c := by
    rw [Machine.allRegs, hcl]
    simp
  have halias : ∀ r ∈ M.regsOf c, M.aliasOf r = {r} := by
    intro r hr
    rw [Machine.aliasOf, hall, if_pos hr, hal]
    have : (M.regsOf c).filter (fun r2 => r ∈ M.aliasRaw r2) = ∅ := by
      apply Finset.filter_false_of_mem
      intro x hx
      rw [hal]
      simp
    rw [this]
    simp
  have hq : M.q c c = 1 := by
    rw [Machine.q]
    have : ∀ r ∈ M.regsOf c, ((M.aliasOf r) ∩ M.regsOf c).card = 1 := by
      intro r hr
      rw [halias r hr, Finset.singleton_inter_of_mem hr]
      simp
    have hcong : (M.regsOf c).sup
        (fun r => ((M.aliasOf r) ∩ M.regsOf c).card) =
          (M.regsOf c).sup (fun _ => 1) :=
      Finset.sup_congr rfl this
    rw [hcong, Finset.sup_const hne]
  have hsum : (g.adjacent n).sum
      (fun m => M.q (g.data n).regClass (g.data m).regClass) =
        (g.adjacent n).card := by
    rw [Finset.sum_congr rfl (fun m hm => by rw [hnc, hmc m hm, hq])]
    simp
  rw [part1 M g n, hsum, hcolor, hnc]
  simp

/-! ## Claim C1: the priority of the main loop -/

theorem ok_ne_error {α : Type} {a : α} {e : AllocError}
    (h : (Except.ok a : Except AllocError α) = .error e) : False :=
  Except.noConfusion h

theorem error_ne_ok {α : Type} {e : AllocError} {b : α}
    (h : (Except.error e : Except AllocError α) = .ok b) : False :=
  Except.noConfusion h

theorem except_bind_error {α β : Type} {x : Except AllocError α}
    {f : α → Except AllocError β} {e : AllocError} (h : x >>= f = .error e) :
    x = .error e ∨ ∃ a, x = .ok a ∧ f a = .error e := by
  cases x with
  | error e2 =>
      left
      have h2 : (Except.error e2 : Except AllocError β) = .error e := h
      rw [Except.error.inj h2]
  | ok a =>
      right
      exact ⟨a, rfl, h⟩

theorem except_bind_ok {α β : Type} {x : Except AllocError α}
    {f : α → Except AllocError β} {b : β} (h : x >>= f = .ok b) :
    ∃ a, x = .ok a ∧ f a = .ok b := by
  cases x with
  | error e2 => exact absurd h error_ne_ok
  | ok a => exact ⟨a, rfl, h⟩

theorem except_map_error {α β : Type} {x : Except AllocError α}
    {f : α → β} {e : AllocError} (h : x.map f = .error e) : x = .error e := by
  cases x with
  | error e2 =>
      have h2 : (Except.error e2 : Except AllocError β) = .error e := h
      rw [Except.error.inj h2]
  | ok a => exact absurd h ok_ne_error

theorem except_map_ok {α β : Type} {x : Except AllocError α}
    {f : α → β} {b : β} (h : x.map f = .ok b) :
    ∃ a, x = .ok a ∧ f a = b := by
  cases x with
  | error e2 => exact absurd h error_ne_ok
  | ok a =>
      refine ⟨a, rfl, ?_⟩
      have h2 : (Except.ok (f a) : Except AllocError β) = .ok b := h
      exact Except.ok.inj h2

theorem common_reg_class_error {M : Machine} {a b : RegClass} {e : AllocError}
    (h : common_reg_class M a b = .error e) : e = AllocError.classMismatch := by
  rw [common_reg_class] at h
  split_ifs at h
  exact (Except.error.inj h).symm

theorem conservative_error {M : Machine} {g : IG} {u v : NodeId} {e : AllocError}
    (h : conservative M g u v = .error e) : e = AllocError.classMismatch := by
  simp only [conservative] at h
  rcases except_bind_error h with herr | ⟨cc, hok, h2⟩
  · exact common_reg_class_error herr
  · exact absurd h2 ok_ne_error

theorem combine_error {s : AState} {u v : NodeId} {e : AllocError}
    (h : combine s u v = .error e) : e = AllocError.classMismatch := by
  simp only [combine] at h
  rcases except_bind_error h with herr | ⟨cc, hok, h2⟩
  · exact common_reg_class_error herr
  · split_ifs at h2 <;> exact absurd h2 ok_ne_error

theorem coalesc_cond_error {s : AState} {u v : NodeId} {e : AllocError}
    (h : coalesc_cond s u v = .error e) : e = AllocError.classMismatch := by
  rw [coalesc_cond] at h
  split_ifs at h
  exact conservative_error h

theorem coalesc_error {s : AState} {e : AllocError}
    (h : coalesc s = .error e) : e = AllocError.classMismatch := by
  rcases hm : (fsort s.worklistMoves).head? with _ | m <;>
    simp only [coalesc, hm] at h
  · exact absurd h ok_ne_error
  · split_ifs at h
    all_goals
      first
      | exact absurd h ok_ne_error
      | (rcases except_bind_error h with herr | ⟨c, hok, h2⟩
         · exact coalesc_cond_error herr
         · split_ifs at h2
           · rcases except_bind_error h2 with herr2 | ⟨s2, hok2, h3⟩
             · exact combine_error herr2
             · exact absurd h3 ok_ne_error
           · exact absurd h2 ok_ne_error)

theorem loopStep_none {s : AState} (h : loopStep s = .ok none) :
    s.simplifyWorklist = [] ∧ s.worklistMoves = ∅ ∧ s.freeze_worklist = [] ∧
      s.spillWorklist = [] := by
  rw [loopStep] at h
  split_ifs at h with h1 h2 h3 h4
  · simp at h
  · rcases except_map_ok h with ⟨a, _, hfa⟩
    simp at hfa
  · simp at h
  · exact ⟨of_not_not (fun hc => h1 hc), of_not_not (fun hc => h2 hc),
      of_not_not (fun hc => h3 hc), of_not_not (fun hc => h4 hc)⟩

theorem runLoop_final :
    ∀ (fuel : Nat) {s : AState} {tr : List Phase} {s' : AState},
      runLoop fuel s = .ok (tr, s') →
      s'.simplifyWorklist = [] ∧ s'.worklistMoves = ∅ ∧ s'.freeze_worklist = [] ∧
        s'.spillWorklist = []
  | 0, s, tr, s', h => absurd h error_ne_ok
  | fuel + 1, s, tr, s', h => by
      rw [runLoop] at h
      rcases hls : loopStep s with e | o
      · rw [hls] at h
        exact absurd h error_ne_ok
      · rcases o with _ | ⟨ph, s2⟩ <;> rw [hls] at h
        · have h2 := Except.ok.inj h
          have hs : s = s' := congrArg Prod.snd h2
          rw [← hs]
          exact loopStep_none hls
        · rcases except_map_ok h with ⟨p, hrun, heq⟩
          have hs : p.2 = s' := congrArg Prod.snd heq
          rw [← hs]
          exact runLoop_final fuel hrun

theorem alloc_frame_shape {fuel : Nat} {s : AState} {tr : List Phase} {sf : AState}
    (h : alloc_frame fuel s = .ok (tr, sf)) :
    ∃ tr1 s1, runLoop fuel s = .ok (tr1, s1) ∧
      tr = tr1 ++ [Phase.assignColorsPhase, Phase.removeMovesPhase,
        Phase.applyColorsPhase] := by
  simp only [alloc_frame] at h
  rcases except_bind_ok h with ⟨p, hrun, h2⟩
  rcases except_bind_ok h2 with ⟨s2, hassign, h3⟩
  rcases except_bind_ok h3 with ⟨s4, happly, h4⟩
  have h5 : (Except.ok (p.1 ++ [Phase.assignColorsPhase, Phase.removeMovesPhase,
      Phase.applyColorsPhase], s4) : Except AllocError (List Phase × AState)) =
        .ok (tr, sf) := h4
  have h6 := Except.ok.inj h5
  refine ⟨p.1, p.2, hrun, ?_⟩
  exact (congrArg Prod.fst h6).symm

/-- C1: the main loop of `alloc_frame` dispatches in strict priority: a
coalesce step fires only with an empty simplify worklist; a freeze step only
with an empty simplify worklist and no worklist moves; the fatal
unimplemented-spill error is raised exactly when the simplify worklist, the
worklist moves and the freeze worklist are all empty while the spill worklist
is not; the loop exits only with all four empty; and a successful
`alloc_frame` run extends the loop trace with `assign_colors`,
`remove_redundant_moves` and `apply_colors`, in that order. -/
theorem alloc_frame_loop_priority :
    (∀ s s', loopStep s = .ok (some (Phase.coalesceStep, s')) →
      s.simplifyWorklist = []) ∧
    (∀ s s', loopStep s = .ok (some (Phase.freezeStep, s')) →
      s.simplifyWorklist = [] ∧ s.worklistMoves = ∅) ∧
    (∀ s, loopStep s = .error AllocError.unimplementedSpill ↔
      (s.simplifyWorklist = [] ∧ s.worklistMoves = ∅ ∧ s.freeze_worklist = [] ∧
        s.spillWorklist ≠ [])) ∧
    (∀ fuel s tr s', runLoop fuel s = .ok (tr, s') →
      s'.simplifyWorklist = [] ∧ s'.worklistMoves = ∅ ∧ s'.freeze_worklist = [] ∧
        s'.spillWorklist = []) ∧
    (∀ fuel s tr sf, alloc_frame fuel s = .ok (tr, sf) →
      ∃ tr1 s1, runLoop fuel s = .ok (tr1, s1) ∧
        tr = tr1 ++ [Phase.assignColorsPhase, Phase.removeMovesPhase,
          Phase.applyColorsPhase]) := by
  refine ⟨?_, ?_, ?_, fun fuel _ _ _ h => runLoop_final fuel h,
    fun _ _ _ _ h => alloc_frame_shape h⟩
  · intro s s' h
    rw [loopStep] at h
    split_ifs at h with h1 h2 h3 h4
    · simp at h
    · exact of_not_not h1
    · simp at h
    · simp at h
  · intro s s' h
    rw [loopStep] at h
    split_ifs at h with h1 h2 h3 h4
    · simp at h
    · rcases except_map_ok h with ⟨a, _, hfa⟩
      simp at hfa
    · exact ⟨of_not_not h1, of_not_not h2⟩
    · simp at h
  · intro s
    constructor
    · intro h
      rw [loopStep] at h
      split_ifs at h with h1 h2 h3 h4
      · have herr := except_map_error h
        have := coalesc_error herr
        exact absurd this (by intro hc; exact AllocError.noConfusion hc)
      · exact ⟨of_not_not h1, of_not_not h2, of_not_not h3, h4⟩
    · intro ⟨h1, h2, h3, h4⟩
      rw [loopStep]
      rw [if_neg (by simp [h1]), if_neg (by simp [h2]), if_neg (by simp [h3]),
        if_pos h4]

/-! ## Concrete example states for the witnesses -/

/-- A one-class, three-register architecture (K = 3, no aliasing, no
subclasses), as in the spec's end-to-end scenarios. -/
def exM : Machine :=
  { classes := [0]
    regsOf := fun c => if c = 0 then {0, 1, 2} else ∅
    subclassOf := fun a b => a = b
    aliasRaw := fun _ => ∅ }

/-- Two virtual nodes (registers 100 and 101) with no interference edge,
related by one move. -/
def exG : IG :=
  { alive := {0, 1}
    data := fun k =>
      if k = 0 then ⟨{100}, none, 0, ∅⟩
      else if k = 1 then ⟨{101}, none, 0, ∅⟩
      else ⟨∅, none, 0, ∅⟩
    edges := ∅
    masked := ∅
    owner := fun r => if r = 100 then 0 else if r = 101 then 1 else 99 }

/-- Three instructions: a definition of 100, the move `101 <- 100`, a use of
101. -/
def exInstrs : List Instr :=
  [⟨5, [], [100], false⟩, ⟨7, [100], [101], true⟩, ⟨9, [101], [], false⟩]

/-- The allocator state for the example after `build`/`makeWorkList`. -/
def exState : AState := initState exM exG exInstrs (fun _ => none)

/-- A state whose three higher-priority worklists are drained while the spill
worklist holds a node. -/
def exSpillState : AState :=
  { M := exM, ig := exG, precolored := ∅, instructions := []
    coalescedMoves := ∅, constrainedMoves := ∅, frozenMoves := ∅
    activeMoves := ∅, worklistMoves := ∅
    select_stack := [], spillWorklist := [0], freeze_worklist := []
    simplifyWorklist := [], regColor := fun _ => none }

/-- The state at loop exit of the example run. -/
def exRunFinal : AState :=
  match runLoop 20 exState with
  | .ok p => p.2
  | .error _ => exState

/-- C1 witness: on the drained state with spill work the dispatcher raises
the unimplemented-spill error, and the example run exits its loop with all
four worklists empty. -/
theorem alloc_frame_loop_priority_witness :
    loopStep exSpillState = Except.error AllocError.unimplementedSpill ∧
    exRunFinal.simplifyWorklist = [] ∧ exRunFinal.worklistMoves = ∅ ∧
    exRunFinal.freeze_worklist = [] ∧ exRunFinal.spillWorklist = [] := by
  have h1 := (alloc_frame_loop_priority.2.2.1 exSpillState).mpr
    ⟨rfl, rfl, rfl, by decide⟩
  have hok : (runLoop 20 exState).isOk = true := by decide
  rcases hrun : runLoop 20 exState with e | p
  · rw [hrun] at hok
    simp [Except.isOk, Except.toBool] at hok
  · have h2 := alloc_frame_loop_priority.2.2.2.1 20 exState p.1 p.2 hrun
    have hfin : exRunFinal = p.2 := by
      unfold exRunFinal
      rw [hrun]
    rw [hfin]
    exact ⟨h1, h2⟩

/-- C2 witness: in the one-class no-alias example, node 0 (with no
neighbours) is trivially colorable, by the `degree < K` reduction. -/
theorem is_colorable_spec_witness : is_colorable exM exG 0 = true := by
  have h := is_colorable_spec.2 exM exG 0 0 rfl (fun r => rfl) rfl
    (by decide) rfl (by decide)
  exact h.mpr (by decide)

/-! ## Projection lemmas for the step functions -/

theorem foldl_proj_eq {α β γ : Type} (proj : α → γ) (f : α → β → α)
    (h : ∀ a b, proj (f a b) = proj a) :
    ∀ (l : List β) (a : α), proj (l.foldl f a) = proj a
  | [], _ => rfl
  | b :: t, a => by
      rw [List.foldl_cons, foldl_proj_eq proj f h t (f a b), h a b]

theorem foldl_preserve {α β : Type} {P : α → Prop} {f : α → β → α}
    (h : ∀ a b, P a → P (f a b)) :
    ∀ (l : List β) (a : α), P a → P (l.foldl f a)
  | [], _, ha => ha
  | b :: t, a, ha => by
      rw [List.foldl_cons]
      exact foldl_preserve h t (f a b) (h a b ha)

theorem enable_one_ig (s : AState) (m : MoveId) : (enable_one s m).ig = s.ig := by
  rw [enable_one]
  split_ifs <;> rfl

theorem enable_one_coalesced (s : AState) (m : MoveId) :
    (enable_one s m).coalescedMoves = s.coalescedMoves := by
  rw [enable_one]
  split_ifs <;> rfl

theorem EnableMoves_ig (s : AState) (nodes : Finset NodeId) :
    (EnableMoves s nodes).ig = s.ig :=
  foldl_proj_eq AState.ig _
    (fun a _ => foldl_proj_eq AState.ig enable_one enable_one_ig _ a) _ s

theorem EnableMoves_coalesced (s : AState) (nodes : Finset NodeId) :
    (EnableMoves s nodes).coalescedMoves = s.coalescedMoves :=
  foldl_proj_eq AState.coalescedMoves _
    (fun a _ => foldl_proj_eq AState.coalescedMoves enable_one
      enable_one_coalesced _ a) _ s

theorem decrement_degree_ig (s : AState) (m : NodeId) :
    (decrement_degree s m).ig = s.ig := by
  simp only [decrement_degree]
  split_ifs <;> simp [EnableMoves_ig]

theorem decrement_degree_coalesced (s : AState) (m : NodeId) :
    (decrement_degree s m).coalescedMoves = s.coalescedMoves := by
  simp only [decrement_degree]
  split_ifs <;> simp [EnableMoves_coalesced]

theorem add_worklist_ig (s : AState) (u : NodeId) :
    (add_worklist s u).ig = s.ig := by
  rw [add_worklist]
  split_ifs <;> rfl

theorem add_worklist_coalesced (s : AState) (u : NodeId) :
    (add_worklist s u).coalescedMoves = s.coalescedMoves := by
  rw [add_worklist]
  split_ifs <;> rfl

theorem IG.combine_data_u (g : IG) (u v : NodeId) :
    ((g.combine u v).data u).regClass = (g.data u).regClass := by
  simp [IG.combine]

theorem IG.combine_data_ne (g : IG) (u v k : NodeId) (h : k ≠ u) :
    (g.combine u v).data k = g.data k := by
  simp [IG.combine, h]

theorem IG.combine_alive (g : IG) (u v : NodeId) :
    (g.combine u v).alive = g.alive.erase v := rfl

theorem IG.set_class_alive (g : IG) (n : NodeId) (c : RegClass) :
    (g.set_class n c).alive = g.alive := rfl

/-- Field facts about a successful allocator `combine`: the coalesced moves
are untouched and `v` is retired from the graph. -/
theorem combine_ok_fields {s : AState} {u v : NodeId} {s2 : AState}
    (h : combine s u v = .ok s2) :
    s2.coalescedMoves = s.coalescedMoves ∧ s2.ig.alive = s.ig.alive.erase v := by
  by_cases hv : v ∈ s.freeze_worklist
  · simp only [combine, if_pos hv] at h
    rcases except_bind_ok h with ⟨cc, hcc, h2⟩
    split_ifs at h2 with hcond <;>
      (have h3 := Except.ok.inj h2
       rw [← h3]
       refine ⟨?_, ?_⟩ <;>
         simp [foldl_proj_eq AState.coalescedMoves decrement_degree
             decrement_degree_coalesced,
           foldl_proj_eq AState.ig decrement_degree decrement_degree_ig,
           IG.set_class_alive, IG.combine_alive])
  · simp only [combine, if_neg hv] at h
    rcases except_bind_ok h with ⟨cc, hcc, h2⟩
    split_ifs at h2 with hcond <;>
      (have h3 := Except.ok.inj h2
       rw [← h3]
       refine ⟨?_, ?_⟩ <;>
         simp [foldl_proj_eq AState.coalescedMoves decrement_degree
             decrement_degree_coalesced,
           foldl_proj_eq AState.ig decrement_degree decrement_degree_ig,
           IG.set_class_alive, IG.combine_alive])

theorem bind_ok_eq {α β : Type} (a : α) (f : α → Except AllocError β) :
    (Except.ok a >>= f : Except AllocError β) = f a := rfl

theorem pure_ok_eq {α : Type} (a : α) :
    (pure a : Except AllocError α) = .ok a := rfl

/-- When `u`'s class is a subclass of `v`'s class, the allocator `combine`
cannot fail. -/
theorem combine_ok_of_subclass {s : AState} {u v : NodeId}
    (hne : v ≠ u)
    (hsub : s.M.subclassOf (s.ig.data u).regClass (s.ig.data v).regClass = true) :
    ∃ s2, combine s u v = .ok s2 := by
  rcases hc : combine s u v with e | s2
  · exfalso
    by_cases hv : v ∈ s.freeze_worklist <;>
      [simp only [combine, if_pos hv] at hc;
       simp only [combine, if_neg hv] at hc] <;>
      (rcases except_bind_error hc with herr | ⟨a, _, h2⟩
       · rw [common_reg_class, IG.combine_data_u,
           show ((s.ig.combine u v).data v).regClass = (s.ig.data v).regClass from
             by rw [IG.combine_data_ne s.ig u v v hne],
           if_pos hsub] at herr
         exact ok_ne_error herr
       · split_ifs at h2 <;> exact ok_ne_error h2)
  · exact ⟨s2, rfl⟩

/-- C3 (amended): in `coalesc`, for a move with oriented endpoints `(u, v)`
distinct, `v` not pre-colored and no interference edge between them, when `u`
is pre-colored the nodes are combined and the move coalesced exactly when
`fits_class(v.reg_class, u.reg_class)` holds — that is, when **u's** register
class fits within (is a subclass of) **v's** register class — and every `t`
adjacent to `v` satisfies `ok(t, u)`. -/
theorem coalesc_george_spec :
    ∀ (s : AState) (m : MoveId) (x y u v : NodeId),
      (fsort s.worklistMoves).head? = some m →
      x = s.Node (s.dstReg m) → y = s.Node (s.srcReg m) →
      u = (if y ∈ s.precolored then y else x) →
      v = (if y ∈ s.precolored then x else y) →
      u ≠ v → v ∉ s.precolored → s.ig.has_edge u v = false →
      (s.ig.data u).color.isSome = true →
      m ∉ s.coalescedMoves → v ∈ s.ig.alive →
      ((∃ s', coalesc s = .ok s' ∧ m ∈ s'.coalescedMoves ∧ v ∉ s'.ig.alive) ↔
        (fits_class s.M (s.ig.data v).regClass (s.ig.data u).regClass = true ∧
          ∀ t ∈ s.ig.adjacent v, ok_test s.M s.ig t u = true)) := by
  intro s m x y u v hm hx hy hu hv huv hvp hedge hucol hmnc hva
  have hcon : ¬(v ∈ s.precolored ∨ s.ig.has_edge u v = true) := by
    rw [hedge]
    simp [hvp]
  have hcc : coalesc_cond { s with worklistMoves := s.worklistMoves.erase m } u v =
      .ok (fits_class s.M (s.ig.data v).regClass (s.ig.data u).regClass &&
        decide (∀ t ∈ s.ig.adjacent v, ok_test s.M s.ig t u = true)) := by
    rw [coalesc_cond, if_pos hucol]
  by_cases hg : fits_class s.M (s.ig.data v).regClass (s.ig.data u).regClass = true ∧
      ∀ t ∈ s.ig.adjacent v, ok_test s.M s.ig t u = true
  · have hsub : s.M.subclassOf (s.ig.data u).regClass (s.ig.data v).regClass = true :=
      hg.1
    have hne : v ≠ u := fun hc => huv hc.symm
    obtain ⟨s2, hcomb⟩ := combine_ok_of_subclass
      (s := { s with coalescedMoves := insert m s.coalescedMoves,
                     worklistMoves := s.worklistMoves.erase m })
      (u := u) (v := v) hne hsub
    have hcondtrue : (fits_class s.M (s.ig.data v).regClass (s.ig.data u).regClass &&
        decide (∀ t ∈ s.ig.adjacent v, ok_test s.M s.ig t u = true)) = true := by
      rw [hg.1, Bool.true_and, decide_eq_true_eq]
      exact hg.2
    have hfin : coalesc s = .ok (add_worklist s2 u) := by
      simp only [coalesc, hm]
      rw [← hy, ← hx, ← hu, ← hv, if_neg huv, if_neg hcon, hcc, bind_ok_eq,
        hcondtrue, if_pos rfl, hcomb, bind_ok_eq]
      rfl
    refine iff_of_true ⟨add_worklist s2 u, hfin, ?_, ?_⟩ hg
    · rw [add_worklist_coalesced, (combine_ok_fields hcomb).1]
      exact Finset.mem_insert_self m _
    · rw [add_worklist_ig, (combine_ok_fields hcomb).2]
      exact Finset.not_mem_erase v _
  · have hcondfalse : (fits_class s.M (s.ig.data v).regClass (s.ig.data u).regClass &&
        decide (∀ t ∈ s.ig.adjacent v, ok_test s.M s.ig t u = true)) = false := by
      by_cases hf : fits_class s.M (s.ig.data v).regClass
          (s.ig.data u).regClass = true
      · rw [hf, Bool.true_and, decide_eq_false_iff_not]
        intro hb
        exact hg ⟨hf, hb⟩
      · rw [Bool.not_eq_true] at hf
        rw [hf]
        rfl
    have hfin : coalesc s =
        .ok { s with activeMoves := insert m s.activeMoves,
                     worklistMoves := s.worklistMoves.erase m } := by
      simp only [coalesc, hm]
      rw [← hy, ← hx, ← hu, ← hv, if_neg huv, if_neg hcon, hcc, bind_ok_eq,
        hcondfalse]
      rfl
    refine iff_of_false ?_ hg
    rintro ⟨s', hok, hmem, _⟩
    rw [hfin] at hok
    have := Except.ok.inj hok
    rw [← this] at hmem
    exact hmnc hmem

/-- A two-class machine: class 0 has registers 0 and 1; class 1 is a strict
subclass with register 0 only. -/
def c3M : Machine :=
  { classes := [0, 1]
    regsOf := fun c => if c = 0 then {0, 1} else if c = 1 then {0} else ∅
    subclassOf := fun a b => (a == b) || (a == 1 && b == 0)
    aliasRaw := fun _ => ∅ }

/-- Node 0: pre-colored to register 0, in the subclass 1.  Node 1: virtual
(register 100), in the superclass 0.  No interference edges; one move. -/
def c3G : IG :=
  { alive := {0, 1}
    data := fun k =>
      if k = 0 then ⟨{0}, some 0, 1, {0}⟩
      else if k = 1 then ⟨{100}, none, 0, {0}⟩
      else ⟨∅, none, 0, ∅⟩
    edges := ∅
    masked := ∅
    owner := fun r => if r = 0 then 0 else if r = 100 then 1 else 99 }

/-- A coalesce-ready state for the move `100 <- 0` (id 0) between the
pre-colored node 0 and the virtual node 1. -/
def c3State : AState :=
  { M := c3M, ig := c3G, precolored := {0}
    instructions := [⟨0, [0], [100], true⟩]
    coalescedMoves := ∅, constrainedMoves := ∅, frozenMoves := ∅
    activeMoves := ∅, worklistMoves := {0}
    select_stack := [], spillWorklist := [], freeze_worklist := [1]
    simplifyWorklist := []
    regColor := fun r => if r = 0 then some 0 else none }

/-- The state `coalesc` produces on `c3State`. -/
def c3Result : AState :=
  match coalesc c3State with
  | .ok s' => s'
  | .error _ => c3State

/-- C3 counterexample: on `c3State` the move's oriented endpoints are
`u = 0` (pre-colored) and `v = 1`, `v` is not pre-colored, no edge joins
them, and the George test holds vacuously — yet `v`'s register class (0) is
*not* a subclass of `u`'s register class (1), and the code still combines the
nodes and coalesces the move (because the code tests the opposite direction,
`issubclass(u.reg_class, v.reg_class)`).  This refutes the claim's "exactly
when v's register class fits within u's register class". -/
theorem coalesc_george_direction_counterexample :
    (coalesc c3State).isOk = true ∧
    0 ∈ c3Result.coalescedMoves ∧ (1 : NodeId) ∉ c3Result.ig.alive ∧
    c3M.subclassOf (c3G.data 1).regClass (c3G.data 0).regClass = false ∧
    (c3G.data 0).color.isSome = true ∧ (1 : NodeId) ∉ c3State.precolored ∧
    c3State.ig.has_edge 0 1 = false ∧
    (∀ t ∈ c3G.adjacent 1, ok_test c3M c3G t 0 = true) ∧
    c3State.Node (c3State.srcReg 0) = 0 ∧ c3State.Node (c3State.dstReg 0) = 1 ∧
    (0 : NodeId) ∈ c3State.precolored := by decide

/-- C3 witness: the amended characterization applied to `c3State` — the
reversed class test holds there (`u`'s class 1 fits within `v`'s class 0), so
the move is coalesced and node 1 combined away. -/
theorem coalesc_george_spec_witness :
    0 ∈ c3Result.coalescedMoves ∧ (1 : NodeId) ∉ c3Result.ig.alive := by
  have h := (coalesc_george_spec c3State 0 1 0 0 1 (by decide) (by decide)
      (by decide) (by decide) (by decide) (by decide) (by decide) (by decide)
      (by decide) (by decide) (by decide)).mpr ⟨by decide, by decide⟩
  obtain ⟨s', hok, h1, h2⟩ := h
  have hres : c3Result = s' := by
    unfold c3Result
    rw [hok]
  rw [hres]
  exact ⟨h1, h2⟩

/-! ## Claim C5: `assign_colors` -/

theorem except_map_bind {α β γ : Type} (x : Except AllocError α)
    (k : α → Except AllocError β) (f : β → γ) :
    (x >>= k).map f = x >>= fun a => (k a).map f := by
  cases x <;> rfl

theorem fsort_headD_mem {s : Finset Nat} (h : s ≠ ∅) : (fsort s).headD 0 ∈ s := by
  obtain ⟨a, ha⟩ := Finset.nonempty_of_ne_empty h
  rcases hl : fsort s with _ | ⟨b, t⟩
  · rw [← mem_fsort s a, hl] at ha
    simp at ha
  · rw [← mem_fsort]
    rw [hl]
    simp

/-- C5 (amended): `assign_colors` pops the select stack in LIFO order (the
node pushed last is processed first); each popped node is unmasked and given
some color of its class outside the union of the aliases of its visible
neighbours' colors; when no such color exists the allocator fails with a
fatal **assertion error** (`assert ok_regs`), not the `UnimplementedSpill`
error. -/
theorem assign_colors_spec :
    (∀ (s : AState) (st : List NodeId) (n : NodeId),
      s.select_stack = st ++ [n] →
      assign_colors s =
        select_one s.M s.ig n >>= fun g =>
          assign_colors { s with ig := g, select_stack := st }) ∧
    (∀ (M : Machine) (g : IG) (n : NodeId) (g2 : IG),
      select_one M g n = .ok g2 →
      ∃ c, (g2.data n).color = some c ∧
        c ∈ M.regsOf ((g.unmask_node n).data n).regClass \
          ((g.unmask_node n).adjacent n).biUnion (fun m =>
            match ((g.unmask_node n).data m).color with
            | some c2 => M.aliasOf c2
            | none => ∅)) ∧
    (∀ (M : Machine) (g : IG) (n : NodeId),
      (M.regsOf ((g.unmask_node n).data n).regClass \
          ((g.unmask_node n).adjacent n).biUnion (fun m =>
            match ((g.unmask_node n).data m).color with
            | some c2 => M.aliasOf c2
            | none => ∅)) = ∅ ↔
        select_one M g n = .error AllocError.assertionFailure) := by
  refine ⟨?_, ?_, ?_⟩
  · intro s st n hstack
    simp only [assign_colors, hstack, List.reverse_append, List.reverse_cons,
      List.reverse_nil, List.nil_append, List.singleton_append]
    simp only [assign_loop]
    rw [except_map_bind]
  · intro M g n g2 h
    simp only [select_one] at h
    split_ifs at h with hempty
    have h2 := Except.ok.inj h
    · refine ⟨(fsort (M.regsOf ((g.unmask_node n).data n).regClass \
          ((g.unmask_node n).adjacent n).biUnion (fun m =>
            match ((g.unmask_node n).data m).color with
            | some c2 => M.aliasOf c2
            | none => ∅))).headD 0, ?_, fsort_headD_mem hempty⟩
      rw [← h2]
      simp [IG.set_color]
  · intro M g n
    constructor
    · intro hempty
      simp only [select_one]
      rw [if_pos hempty]
    · intro h
      simp only [select_one] at h
      split_ifs at h with hempty
      exact hempty

/-- One-register machine for the assertion-failure run. -/
def c5M : Machine :=
  { classes := [0]
    regsOf := fun c => if c = 0 then {0} else ∅
    subclassOf := fun a b => a = b
    aliasRaw := fun _ => ∅ }

/-- Node 0 (virtual, on the select stack, masked) interferes with node 1,
which is pre-colored to the only register 0. -/
def c5G : IG :=
  { alive := {0, 1}
    data := fun k =>
      if k = 0 then ⟨{100}, none, 0, ∅⟩
      else if k = 1 then ⟨{0}, some 0, 0, ∅⟩
      else ⟨∅, none, 0, ∅⟩
    edges := {(0, 1), (1, 0)}
    masked := {0}
    owner := fun r => if r = 100 then 0 else if r = 0 then 1 else 99 }

/-- The allocator state about to run `assign_colors` with node 0 on the
stack and every register of its class taken. -/
def c5State : AState :=
  { M := c5M, ig := c5G, precolored := {1}, instructions := []
    coalescedMoves := ∅, constrainedMoves := ∅, frozenMoves := ∅
    activeMoves := ∅, worklistMoves := ∅
    select_stack := [0], spillWorklist := [], freeze_worklist := []
    simplifyWorklist := [], regColor := fun r => if r = 0 then some 0 else none }

/-- C5 counterexample: on `c5State` the free-register set of the popped node
is empty, and `assign_colors` fails with the assertion error, not with the
`UnimplementedSpill` error the claim names. -/
theorem assign_colors_error_counterexample :
    (c5M.regsOf ((c5G.unmask_node 0).data 0).regClass \
        ((c5G.unmask_node 0).adjacent 0).biUnion (fun m =>
          match ((c5G.unmask_node 0).data m).color with
          | some c2 => c5M.aliasOf c2
          | none => ∅)) = ∅ ∧
    assign_colors c5State = .error AllocError.assertionFailure ∧
    assign_colors c5State ≠ .error AllocError.unimplementedSpill := by
  refine ⟨by decide, rfl, ?_⟩
  intro h
  rw [show assign_colors c5State = .error AllocError.assertionFailure from rfl] at h
  exact AllocError.noConfusion (Except.error.inj h)

/-- The graph `select_one` produces on the example node 0 (which has three
free registers). -/
def c5Sel : IG :=
  match select_one exM exG 0 with
  | .ok g => g
  | .error _ => exG

/-- C5 witness: the LIFO unfolding applied at `c5State`, the assertion-error
case applied at its popped node, and a successful `select_one` coloring node
0 of the three-register example. -/
theorem assign_colors_spec_witness :
    (assign_colors c5State =
      select_one c5M c5G 0 >>= fun g =>
        assign_colors { c5State with ig := g, select_stack := [] }) ∧
    select_one c5M c5G 0 = .error AllocError.assertionFailure ∧
    (c5Sel.data 0).color.isSome = true := by
  refine ⟨assign_colors_spec.1 c5State [] 0 rfl,
    (assign_colors_spec.2.2 c5M c5G 0).mp (by decide), ?_⟩
  have hok : (select_one exM exG 0).isOk = true := by decide
  rcases hsel : select_one exM exG 0 with e | g2
  · rw [hsel] at hok
    simp [Except.isOk, Except.toBool] at hok
  · obtain ⟨c, hc, _⟩ := assign_colors_spec.2.1 exM exG 0 g2 hsel
    have hres : c5Sel = g2 := by
      unfold c5Sel
      rw [hsel]
    rw [hres, hc]
    rfl

/-! ## Claim C6: `remove_redundant_moves` and `apply_colors` -/

theorem eraseP_id_eq_filter (mid : MoveId) :
    ∀ (l : List Instr), (l.map Instr.id).Nodup →
      l.eraseP (fun i => i.id == mid) = l.filter (fun i => ! (i.id == mid))
  | [], _ => rfl
  | a :: t, hn => by
      simp only [List.map_cons, List.nodup_cons] at hn
      by_cases ha : a.id = mid
      · have hpa : (a.id == mid) = true := by simp [ha]
        simp only [List.eraseP_cons, List.filter_cons, hpa, cond_true,
          Bool.not_true, Bool.false_eq_true, if_false]
        symm
        rw [List.filter_eq_self]
        intro x hx
        simp only [Bool.not_eq_true', beq_eq_false_iff_ne]
        intro hc
        exact hn.1 (by rw [ha, ← hc]; exact List.mem_map_of_mem Instr.id hx)
      · have hpa : (a.id == mid) = false := by simp [ha]
        simp only [List.eraseP_cons, List.filter_cons, hpa, cond_false,
          Bool.not_false, if_true]
        rw [eraseP_id_eq_filter mid t hn.2]

theorem foldl_eraseP_mem :
    ∀ (l : List MoveId) (insts : List Instr), (insts.map Instr.id).Nodup →
      ∀ i : Instr,
        i ∈ l.foldl (fun acc mid => acc.eraseP (fun j => j.id == mid)) insts ↔
          (i ∈ insts ∧ i.id ∉ l)
  | [], insts, _, i => by simp
  | mid :: rest, insts, hn, i => by
      rw [List.foldl_cons, eraseP_id_eq_filter mid insts hn]
      have hn2 : ((insts.filter (fun j => ! (j.id == mid))).map Instr.id).Nodup := by
        exact List.Nodup.sublist
          (List.Sublist.map Instr.id (List.filter_sublist insts)) hn
      rw [foldl_eraseP_mem rest _ hn2 i, List.mem_filter]
      simp only [List.mem_cons, Bool.not_eq_true', beq_eq_false_iff_ne]
      constructor
      · rintro ⟨⟨h1, h2⟩, h3⟩
        exact ⟨h1, by rintro (hc | hc); exacts [h2 hc, h3 hc]⟩
      · rintro ⟨h1, h2⟩
        exact ⟨⟨h1, fun hc => h2 (Or.inl hc)⟩, fun hc => h2 (Or.inr hc)⟩

theorem apply_node_ok {g : IG} {rc rc2 : RegId → Option RegId} {nd : NodeId}
    (h : apply_node g rc nd = .ok rc2) :
    (∀ r ∈ (g.data nd).temps, rc2 r = (g.data nd).color) ∧
    (∀ r, r ∉ (g.data nd).temps → rc2 r = rc r) ∧
    (∀ r c, rc r = some c → rc2 r = some c) ∧
    ((g.data nd).temps ≠ ∅ → (g.data nd).color.isSome = true) := by
  have main :
      ∀ (l : List RegId) (rc0 rc3 : RegId → Option RegId),
        l.foldlM (fun rc' r =>
          match (g.data nd).color with
          | none => (.error .attributeError : Except AllocError (RegId → Option RegId))
          | some c =>
              match rc' r with
              | some c' => if c' = c then .ok rc' else .error .assertionFailure
              | none => .ok (fun r' => if r' = r then some c else rc' r')) rc0 = .ok rc3 →
        (∀ r ∈ l, rc3 r = (g.data nd).color) ∧
        (∀ r, r ∉ l → rc3 r = rc0 r) ∧
        (∀ r c, rc0 r = some c → rc3 r = some c) ∧
        (l ≠ [] → (g.data nd).color.isSome = true) := by
    intro l
    induction l with
    | nil =>
        intro rc0 rc3 h0
        have h1 : rc0 = rc3 := Except.ok.inj h0
        rw [← h1]
        exact ⟨by simp, fun _ _ => rfl, fun _ _ hc => hc, fun hc => absurd rfl hc⟩
    | cons r0 t ih =>
        intro rc0 rc3 h0
        rw [List.foldlM_cons] at h0
        rcases except_bind_ok h0 with ⟨rc1, hstep, hrest⟩
        rcases hcol : (g.data nd).color with _ | cval
        · rw [hcol] at hstep
          exact absurd hstep error_ne_ok
        · rw [hcol] at hstep
          obtain ⟨ih1, ih2, ih3, _⟩ := ih rc1 rc3 hrest
          simp only [hcol] at ih1
          have hstep1 : rc1 r0 = some cval ∧
              (∀ r, r ≠ r0 → rc1 r = rc0 r) ∧
              (∀ r c, rc0 r = some c → rc1 r = some c) := by
            rcases hr0 : rc0 r0 with _ | c0
            · rw [hr0] at hstep
              have h2 := Except.ok.inj
                (show (Except.ok (fun r' => if r' = r0 then some cval else rc0 r') :
                  Except AllocError (RegId → Option RegId)) = .ok rc1 from hstep)
              rw [← h2]
              refine ⟨by simp, fun r hr => by simp [hr], fun r c hc => ?_⟩
              by_cases he : r = r0
              · rw [he, hr0] at hc
                exact Option.noConfusion hc
              · simp [he, hc]
            · rw [hr0] at hstep
              have hstep2 : (if c0 = cval then
                  (Except.ok rc0 : Except AllocError (RegId → Option RegId))
                  else .error .assertionFailure) = .ok rc1 := hstep
              split_ifs at hstep2 with he
              have h2 := Except.ok.inj hstep2
              rw [← h2]
              exact ⟨by rw [hr0, he], fun _ _ => rfl, fun _ _ hc => hc⟩
          refine ⟨?_, ?_, ?_, fun _ => rfl⟩
          · intro r hr
            rcases List.mem_cons.mp hr with hr1 | hr2
            · by_cases hrt : r ∈ t
              · exact ih1 r hrt
              · rw [ih2 r hrt, hr1, hstep1.1]
            · exact ih1 r hr2
          · intro r hr
            simp only [List.mem_cons, not_or] at hr
            rw [ih2 r hr.2, hstep1.2.1 r hr.1]
          · intro r c hc
            exact ih3 r c (hstep1.2.2 r c hc)
  rw [apply_node] at h
  obtain ⟨h1, h2, h3, h4⟩ := main _ rc rc2 h
  refine ⟨fun r hr => h1 r ((mem_fsort _ r).mpr hr),
    fun r hr => h2 r (fun hc => hr ((mem_fsort _ r).mp hc)), h3, ?_⟩
  intro hne
  apply h4
  intro hc
  obtain ⟨a, ha⟩ := Finset.nonempty_of_ne_empty hne
  have := (mem_fsort _ a).mpr ha
  rw [hc] at this
  simp at this

theorem apply_fold_ok {g : IG} :
    ∀ (l : List NodeId) (rc rc2 : RegId → Option RegId), l.Nodup →
      (∀ n1 ∈ l, ∀ n2 ∈ l, n1 ≠ n2 →
        Disjoint (g.data n1).temps (g.data n2).temps) →
      l.foldlM (apply_node g) rc = .ok rc2 →
      (∀ nd ∈ l, ∀ r ∈ (g.data nd).temps, rc2 r = (g.data nd).color) ∧
      (∀ r c, rc r = some c → rc2 r = some c)
  | [], rc, rc2, _, _, h => by
      have h1 : rc = rc2 := Except.ok.inj h
      rw [← h1]
      exact ⟨by simp, fun _ _ hc => hc⟩
  | nd0 :: t, rc, rc2, hnodup, hdisj, h => by
      rw [List.foldlM_cons] at h
      rcases except_bind_ok h with ⟨rc1, hstep, hrest⟩
      simp only [List.nodup_cons] at hnodup
      obtain ⟨hs1, hs2, hs3, hs4⟩ := apply_node_ok hstep
      have hdisj2 : ∀ n1 ∈ t, ∀ n2 ∈ t, n1 ≠ n2 →
          Disjoint (g.data n1).temps (g.data n2).temps :=
        fun n1 h1 n2 h2 hne =>
          hdisj n1 (List.mem_cons_of_mem _ h1) n2 (List.mem_cons_of_mem _ h2) hne
      obtain ⟨ih1, ih2⟩ := apply_fold_ok t rc1 rc2 hnodup.2 hdisj2 hrest
      refine ⟨?_, fun r c hc => ih2 r c (hs3 r c hc)⟩
      intro nd hnd r hr
      rcases List.mem_cons.mp hnd with hnd1 | hnd2
      · rw [hnd1] at hr ⊢
        have hne : (g.data nd0).temps ≠ ∅ := by
          intro hc
          rw [hc] at hr
          simp at hr
        have hsome := hs4 hne
        rcases hcol : (g.data nd0).color with _ | cv
        · rw [hcol] at hsome
          exact absurd hsome (by simp)
        · have hr1 : rc1 r = some cv := by rw [hs1 r hr, hcol]
          rw [ih2 r cv hr1]
      · exact ih1 nd hnd2 r hr

/-- C6: with duplicate-free instruction identities, `remove_redundant_moves`
deletes exactly the coalesced moves from the instruction list and keeps every
other instruction; `apply_colors` leaves the instruction list alone and, when
it succeeds and the live nodes' `temps` are pairwise disjoint, writes each
node's assigned color onto every register the node represents while every
register that entered colored keeps its color (the assertion); composing the
two phases leaves exactly the non-coalesced instructions with the colors
applied. -/
theorem remove_apply_colors_spec :
    (∀ s : AState, (s.instructions.map Instr.id).Nodup →
      ∀ i : Instr, i ∈ (remove_redundant_moves s).instructions ↔
        (i ∈ s.instructions ∧ i.id ∉ s.coalescedMoves)) ∧
    (∀ s s2 : AState, apply_colors s = .ok s2 →
      s2.instructions = s.instructions ∧ s2.coalescedMoves = s.coalescedMoves) ∧
    (∀ s s2 : AState, apply_colors s = .ok s2 →
      (∀ n1 ∈ s.ig.alive, ∀ n2 ∈ s.ig.alive, n1 ≠ n2 →
        Disjoint (s.ig.data n1).temps (s.ig.data n2).temps) →
      (∀ nd ∈ s.ig.alive, ∀ r ∈ (s.ig.data nd).temps,
        s2.regColor r = (s.ig.data nd).color) ∧
      (∀ r c, s.regColor r = some c → s2.regColor r = some c)) ∧
    (∀ s s2 : AState, (s.instructions.map Instr.id).Nodup →
      apply_colors (remove_redundant_moves s) = .ok s2 →
      ∀ i : Instr, i ∈ s2.instructions ↔
        (i ∈ s.instructions ∧ i.id ∉ s.coalescedMoves)) := by
  have hrem : ∀ s : AState, (s.instructions.map Instr.id).Nodup →
      ∀ i : Instr, i ∈ (remove_redundant_moves s).instructions ↔
        (i ∈ s.instructions ∧ i.id ∉ s.coalescedMoves) := by
    intro s hn i
    simp only [remove_redundant_moves]
    rw [foldl_eraseP_mem (fsort s.coalescedMoves) s.instructions hn i]
    rw [mem_fsort]
  have happ : ∀ s s2 : AState, apply_colors s = .ok s2 →
      s2.instructions = s.instructions ∧ s2.coalescedMoves = s.coalescedMoves := by
    intro s s2 h
    rcases except_map_ok h with ⟨rc, _, heq⟩
    rw [← heq]
    exact ⟨rfl, rfl⟩
  refine ⟨hrem, happ, ?_, ?_⟩
  · intro s s2 h hdisj
    rcases except_map_ok h with ⟨rc, hfold, heq⟩
    have hnodup := fsort_nodup s.ig.alive
    have hdisj2 : ∀ n1 ∈ fsort s.ig.alive, ∀ n2 ∈ fsort s.ig.alive, n1 ≠ n2 →
        Disjoint (s.ig.data n1).temps (s.ig.data n2).temps :=
      fun n1 h1 n2 h2 => hdisj n1 ((mem_fsort _ n1).mp h1) n2 ((mem_fsort _ n2).mp h2)
    obtain ⟨h1, h2⟩ := apply_fold_ok (fsort s.ig.alive) s.regColor rc hnodup
      hdisj2 (by rw [apply_colors] at h; exact hfold)
    rw [← heq]
    exact ⟨fun nd hnd r hr => h1 nd ((mem_fsort _ nd).mpr hnd) r hr, h2⟩
  · intro s s2 hn h i
    rw [(happ _ s2 h).1, hrem s hn i]

/-- Two-node graph for the `apply_colors` witness: node 0 carries virtual
registers 100 and 101 and was assigned register 1; node 1 is the pre-colored
register 0. -/
def c6G : IG :=
  { alive := {0, 1}
    data := fun k =>
      if k = 0 then ⟨{100, 101}, some 1, 0, ∅⟩
      else if k = 1 then ⟨{0}, some 0, 0, ∅⟩
      else ⟨∅, none, 0, ∅⟩
    edges := ∅
    masked := ∅
    owner := fun r => if r = 0 then 1 else 0 }

/-- A state after coloring: the move (id 7) was coalesced, the instruction
list still holds it, register 0 entered pre-colored. -/
def c6State : AState :=
  { M := exM, ig := c6G, precolored := {1}
    instructions := [⟨5, [], [100], false⟩, ⟨7, [100], [101], true⟩]
    coalescedMoves := {7}, constrainedMoves := ∅, frozenMoves := ∅
    activeMoves := ∅, worklistMoves := ∅
    select_stack := [], spillWorklist := [], freeze_worklist := []
    simplifyWorklist := [], regColor := fun r => if r = 0 then some 0 else none }

/-- The state after `remove_redundant_moves` then `apply_colors` on
`c6State`. -/
def c6Final : AState :=
  match apply_colors (remove_redundant_moves c6State) with
  | .ok s2 => s2
  | .error _ => c6State

/-- C6 witness: on `c6State` the coalesced move (id 7) is gone, the other
instruction remains, both virtual registers of node 0 receive its color 1,
and the pre-colored register 0 keeps its color. -/
theorem remove_apply_colors_spec_witness :
    (⟨7, [100], [101], true⟩ : Instr) ∉ c6Final.instructions ∧
    (⟨5, [], [100], false⟩ : Instr) ∈ c6Final.instructions ∧
    c6Final.regColor 100 = some 1 ∧ c6Final.regColor 101 = some 1 ∧
    c6Final.regColor 0 = some 0 := by
  have hok : (apply_colors (remove_redundant_moves c6State)).isOk = true := by decide
  rcases happly : apply_colors (remove_redundant_moves c6State) with e | s2
  · rw [happly] at hok
    simp [Except.isOk, Except.toBool] at hok
  · have hfin : c6Final = s2 := by
      unfold c6Final
      rw [happly]
    have hmem := remove_apply_colors_spec.2.2.2 c6State s2 (by decide) happly
    have hcol := remove_apply_colors_spec.2.2.1 (remove_redundant_moves c6State)
      s2 happly (by decide)
    rw [hfin]
    refine ⟨?_, ?_, ?_, ?_, ?_⟩
    · intro hc
      exact ((hmem _).mp hc).2 (by decide)
    · exact (hmem _).mpr ⟨by decide, by decide⟩
    · exact hcol.1 0 (by decide) 100 (by decide)
    · exact hcol.1 0 (by decide) 101 (by decide)
    · exact hcol.2 0 0 (by decide)

/-! ## Claim C4: the move-set partition invariant -/

/-- How many of the five move sets hold `m`. -/
def inCount (s : AState) (m : MoveId) : Nat :=
  (if m ∈ s.worklistMoves then 1 else 0) +
  (if m ∈ s.activeMoves then 1 else 0) +
  (if m ∈ s.coalescedMoves then 1 else 0) +
  (if m ∈ s.constrainedMoves then 1 else 0) +
  (if m ∈ s.frozenMoves then 1 else 0)

/-- The move-set invariant: every move of `all` lies in exactly one of the
five move sets, and no other move lies in any (this packages both the
pairwise disjointness and the coverage of the original moves). -/
def MoveInv (s : AState) (all : Finset MoveId) : Prop :=
  ∀ m : MoveId, inCount s m = if m ∈ all then 1 else 0

/-- The ids of the move instructions of the input (the moves `build`
collects). -/
def allMoves (instrs : List Instr) : Finset MoveId :=
  ((instrs.filter (fun i => i.ismove)).map (fun i => i.id)).toFinset

theorem fsort_head_mem {s : Finset Nat} {m : Nat}
    (h : (fsort s).head? = some m) : m ∈ s := by
  rcases hl : fsort s with _ | ⟨b, t⟩
  · rw [hl] at h
    exact Option.noConfusion h
  · rw [hl] at h
    have hb := Option.some.inj h
    rw [← mem_fsort s m, hl, hb]
    simp

theorem MoveInv_transfer_wc {s : AState} {all : Finset MoveId} {m : MoveId}
    (hinv : MoveInv s all) (hm : m ∈ s.worklistMoves) :
    MoveInv { s with worklistMoves := s.worklistMoves.erase m,
                     coalescedMoves := insert m s.coalescedMoves } all := by
  intro m2
  have h := hinv m2
  simp only [inCount] at h ⊢
  by_cases he : m2 = m
  · subst he
    rw [if_pos hm] at h
    rw [if_neg (Finset.not_mem_erase m2 _), if_pos (Finset.mem_insert_self m2 _)]
    split_ifs at h ⊢ <;> omega
  · simp only [Finset.mem_erase, Finset.mem_insert, he, ne_eq, not_false_iff,
      true_and, false_or]
    exact h

theorem MoveInv_transfer_wk {s : AState} {all : Finset MoveId} {m : MoveId}
    (hinv : MoveInv s all) (hm : m ∈ s.worklistMoves) :
    MoveInv { s with worklistMoves := s.worklistMoves.erase m,
                     constrainedMoves := insert m s.constrainedMoves } all := by
  intro m2
  have h := hinv m2
  simp only [inCount] at h ⊢
  by_cases he : m2 = m
  · subst he
    rw [if_pos hm] at h
    rw [if_neg (Finset.not_mem_erase m2 _), if_pos (Finset.mem_insert_self m2 _)]
    split_ifs at h ⊢ <;> omega
  · simp only [Finset.mem_erase, Finset.mem_insert, he, ne_eq, not_false_iff,
      true_and, false_or]
    exact h

theorem MoveInv_transfer_wa {s : AState} {all : Finset MoveId} {m : MoveId}
    (hinv : MoveInv s all) (hm : m ∈ s.worklistMoves) :
    MoveInv { s with worklistMoves := s.worklistMoves.erase m,
                     activeMoves := insert m s.activeMoves } all := by
  intro m2
  have h := hinv m2
  simp only [inCount] at h ⊢
  by_cases he : m2 = m
  · subst he
    rw [if_pos hm] at h
    rw [if_neg (Finset.not_mem_erase m2 _), if_pos (Finset.mem_insert_self m2 _)]
    split_ifs at h ⊢ <;> omega
  · simp only [Finset.mem_erase, Finset.mem_insert, he, ne_eq, not_false_iff,
      true_and, false_or]
    exact h

theorem MoveInv_transfer_aw {s : AState} {all : Finset MoveId} {m : MoveId}
    (hinv : MoveInv s all) (hm : m ∈ s.activeMoves) :
    MoveInv { s with activeMoves := s.activeMoves.erase m,
                     worklistMoves := insert m s.worklistMoves } all := by
  intro m2
  have h := hinv m2
  simp only [inCount] at h ⊢
  by_cases he : m2 = m
  · subst he
    rw [if_pos hm] at h
    rw [if_neg (Finset.not_mem_erase m2 _), if_pos (Finset.mem_insert_self m2 _)]
    split_ifs at h ⊢ <;> omega
  · simp only [Finset.mem_erase, Finset.mem_insert, he, ne_eq, not_false_iff,
      true_and, false_or]
    exact h

theorem MoveInv_transfer_af {s : AState} {all : Finset MoveId} {m : MoveId}
    (hinv : MoveInv s all) (hm : m ∈ s.activeMoves) :
    MoveInv { s with activeMoves := s.activeMoves.erase m,
                     frozenMoves := insert m s.frozenMoves } all := by
  intro m2
  have h := hinv m2
  simp only [inCount] at h ⊢
  by_cases he : m2 = m
  · subst he
    rw [if_pos hm] at h
    rw [if_neg (Finset.not_mem_erase m2 _), if_pos (Finset.mem_insert_self m2 _)]
    split_ifs at h ⊢ <;> omega
  · simp only [Finset.mem_erase, Finset.mem_insert, he, ne_eq, not_false_iff,
      true_and, false_or]
    exact h

theorem MoveInv_transfer_wf {s : AState} {all : Finset MoveId} {m : MoveId}
    (hinv : MoveInv s all) (hm : m ∈ s.worklistMoves) :
    MoveInv { s with worklistMoves := s.worklistMoves.erase m,
                     frozenMoves := insert m s.frozenMoves } all := by
  intro m2
  have h := hinv m2
  simp only [inCount] at h ⊢
  by_cases he : m2 = m
  · subst he
    rw [if_pos hm] at h
    rw [if_neg (Finset.not_mem_erase m2 _), if_pos (Finset.mem_insert_self m2 _)]
    split_ifs at h ⊢ <;> omega
  · simp only [Finset.mem_erase, Finset.mem_insert, he, ne_eq, not_false_iff,
      true_and, false_or]
    exact h

theorem enable_one_minv {s : AState} {all : Finset MoveId} {m : MoveId}
    (hinv : MoveInv s all) : MoveInv (enable_one s m) all := by
  rw [enable_one]
  split_ifs with hmem
  · exact MoveInv_transfer_aw hinv hmem
  · exact hinv

theorem EnableMoves_minv {s : AState} {all : Finset MoveId}
    (hinv : MoveInv s all) (nodes : Finset NodeId) :
    MoveInv (EnableMoves s nodes) all := by
  rw [EnableMoves]
  exact foldl_preserve (P := fun s2 => MoveInv s2 all)
    (fun a _ ha => foldl_preserve (P := fun s2 => MoveInv s2 all)
      (fun a2 _ ha2 => enable_one_minv ha2) _ a ha) _ s hinv

theorem decrement_minv {s : AState} {all : Finset MoveId} (m : NodeId)
    (hinv : MoveInv s all) : MoveInv (decrement_degree s m) all := by
  simp only [decrement_degree]
  split_ifs with h1 h2
  · exact EnableMoves_minv hinv _
  · exact EnableMoves_minv hinv _
  · exact hinv

theorem add_worklist_minv {s : AState} {all : Finset MoveId} {u : NodeId}
    (hinv : MoveInv s all) : MoveInv (add_worklist s u) all := by
  rw [add_worklist]
  split_ifs
  · exact hinv
  · exact hinv

theorem combine_minv {s : AState} {u v : NodeId} {s2 : AState}
    {all : Finset MoveId} (hinv : MoveInv s all) (h : combine s u v = .ok s2) :
    MoveInv s2 all := by
  by_cases hv : v ∈ s.freeze_worklist
  · simp only [combine, if_pos hv] at h
    rcases except_bind_ok h with ⟨cc, hcc, h2⟩
    split_ifs at h2 <;>
      (rw [← Except.ok.inj h2]
       exact foldl_preserve (P := fun s3 => MoveInv s3 all)
         (fun a m2 ha => decrement_minv m2 ha) _ _ hinv)
  · simp only [combine, if_neg hv] at h
    rcases except_bind_ok h with ⟨cc, hcc, h2⟩
    split_ifs at h2 <;>
      (rw [← Except.ok.inj h2]
       exact foldl_preserve (P := fun s3 => MoveInv s3 all)
         (fun a m2 ha => decrement_minv m2 ha) _ _ hinv)

theorem MoveInv_of_fields {s2 : AState} {all : Finset MoveId}
    (h : MoveInv s2 all) {s1 : AState}
    (hw : s1.worklistMoves = s2.worklistMoves)
    (ha : s1.activeMoves = s2.activeMoves)
    (hc : s1.coalescedMoves = s2.coalescedMoves)
    (hk : s1.constrainedMoves = s2.constrainedMoves)
    (hf : s1.frozenMoves = s2.frozenMoves) : MoveInv s1 all := by
  intro m
  have h2 := h m
  rw [inCount] at h2 ⊢
  rw [hw, ha, hc, hk, hf]
  exact h2

theorem freeze_one_minv {s : AState} {all : Finset MoveId} {u : NodeId}
    {m : MoveId} (hinv : MoveInv s all)
    (hm : m ∈ s.activeMoves ∨ m ∈ s.worklistMoves) :
    MoveInv (freeze_one s u m) all := by
  simp only [freeze_one]
  split_ifs with h1 hv1 hv2 <;>
    first
    | exact MoveInv_of_fields (MoveInv_transfer_af hinv (by assumption))
        rfl rfl rfl rfl rfl
    | exact MoveInv_of_fields
        (MoveInv_transfer_wf hinv (hm.resolve_left (by assumption)))
        rfl rfl rfl rfl rfl

theorem freeze_one_mem {s : AState} {u : NodeId} {m m2 : MoveId} (hne : m2 ≠ m)
    (hm2 : m2 ∈ s.activeMoves ∨ m2 ∈ s.worklistMoves) :
    m2 ∈ (freeze_one s u m).activeMoves ∨ m2 ∈ (freeze_one s u m).worklistMoves := by
  simp only [freeze_one]
  split_ifs with h1 hv1 hv2 <;>
    rcases hm2 with ha | hw <;>
      simp_all [Finset.mem_erase]

theorem freeze_fold_minv {u : NodeId} {all : Finset MoveId} :
    ∀ (l : List MoveId) (s : AState), l.Nodup →
      (∀ m ∈ l, m ∈ s.activeMoves ∨ m ∈ s.worklistMoves) →
      MoveInv s all →
      MoveInv (l.foldl (fun s2 m => freeze_one s2 u m) s) all
  | [], _, _, _, hinv => hinv
  | m :: t, s, hnodup, hmem, hinv => by
      rw [List.foldl_cons]
      simp only [List.nodup_cons] at hnodup
      refine freeze_fold_minv t _ hnodup.2 ?_
        (freeze_one_minv hinv (hmem m (by simp)))
      intro m2 hm2
      have hne : m2 ≠ m := fun hc => hnodup.1 (hc ▸ hm2)
      exact freeze_one_mem hne (hmem m2 (List.mem_cons_of_mem _ hm2))

theorem freeze_minv {s : AState} {all : Finset MoveId} (hinv : MoveInv s all) :
    MoveInv (freeze s) all := by
  rcases hl : s.freeze_worklist.getLast? with _ | u <;>
    simp only [freeze, hl]
  · exact hinv
  · refine freeze_fold_minv _ _ (fsort_nodup _) ?_
      (MoveInv_of_fields hinv rfl rfl rfl rfl rfl)
    intro m hm
    have h1 := (mem_fsort _ m).mp hm
    have h2 := (Finset.mem_inter.mp h1).2
    rcases Finset.mem_union.mp h2 with h3 | h3
    · exact Or.inl h3
    · exact Or.inr h3

theorem simplify_minv {s : AState} {all : Finset MoveId} (hinv : MoveInv s all) :
    MoveInv (simplify s) all := by
  rcases hl : s.simplifyWorklist.getLast? with _ | n <;>
    simp only [simplify, hl]
  · exact hinv
  · exact foldl_preserve (P := fun s3 => MoveInv s3 all)
      (fun a m2 ha => decrement_minv m2 ha) _ _ hinv

theorem coalesc_minv {s s2 : AState} {all : Finset MoveId} (hinv : MoveInv s all)
    (h : coalesc s = .ok s2) : MoveInv s2 all := by
  rcases hm : (fsort s.worklistMoves).head? with _ | m <;>
    simp only [coalesc, hm] at h
  · rw [← Except.ok.inj h]
    exact hinv
  · have hmem : m ∈ s.worklistMoves := fsort_head_mem hm
    split_ifs at h
    all_goals
      first
      | (rw [← Except.ok.inj h]
         exact add_worklist_minv
           (MoveInv_of_fields (MoveInv_transfer_wc hinv hmem) rfl rfl rfl rfl rfl))
      | (rw [← Except.ok.inj h]
         exact add_worklist_minv (add_worklist_minv
           (MoveInv_of_fields (MoveInv_transfer_wk hinv hmem) rfl rfl rfl rfl rfl)))
      | (rcases except_bind_ok h with ⟨c, hokc, h2⟩
         split_ifs at h2
         · rcases except_bind_ok h2 with ⟨s3, hok3, h3⟩
           rw [← Except.ok.inj h3]
           exact add_worklist_minv (combine_minv
             (MoveInv_of_fields (MoveInv_transfer_wc hinv hmem) rfl rfl rfl rfl rfl)
             hok3)
         · rw [← Except.ok.inj h2]
           exact MoveInv_of_fields (MoveInv_transfer_wa hinv hmem)
             rfl rfl rfl rfl rfl)

theorem loopStep_minv {s s2 : AState} {all : Finset MoveId} {ph : Phase}
    (hinv : MoveInv s all) (h : loopStep s = .ok (some (ph, s2))) :
    MoveInv s2 all := by
  rw [loopStep] at h
  split_ifs at h with h1 h2 h3 h4
  · have h5 := Except.ok.inj h
    have h6 : simplify s = s2 := congrArg Prod.snd (Option.some.inj h5)
    rw [← h6]
    exact simplify_minv hinv
  · rcases except_map_ok h with ⟨a, hok, heq⟩
    have h6 : a = s2 := congrArg Prod.snd (Option.some.inj heq)
    rw [← h6]
    exact coalesc_minv hinv hok
  · have h5 := Except.ok.inj h
    have h6 : freeze s = s2 := congrArg Prod.snd (Option.some.inj h5)
    rw [← h6]
    exact freeze_minv hinv
  · simp at h

theorem runLoop_minv :
    ∀ (fuel : Nat) {s : AState} {all : Finset MoveId} {tr : List Phase}
      {s2 : AState}, MoveInv s all → runLoop fuel s = .ok (tr, s2) →
      MoveInv s2 all
  | 0, _, _, _, _, _, h => absurd h error_ne_ok
  | fuel + 1, s, all, tr, s2, hinv, h => by
      rw [runLoop] at h
      rcases hls : loopStep s with e | o
      · rw [hls] at h
        exact absurd h error_ne_ok
      · rcases o with _ | ⟨ph, s3⟩ <;> rw [hls] at h
        · have h2 := Except.ok.inj h
          have hs : s = s2 := congrArg Prod.snd h2
          rw [← hs]
          exact hinv
        · rcases except_map_ok h with ⟨p, hrun, heq⟩
          have hs : p.2 = s2 := congrArg Prod.snd heq
          rw [← hs]
          exact runLoop_minv fuel (loopStep_minv hinv hls) hrun

theorem initState_minv (M : Machine) (g : IG) (instrs : List Instr)
    (rc : RegId → Option RegId) :
    MoveInv (initState M g instrs rc) (allMoves instrs) := by
  simp only [initState]
  refine foldl_preserve (P := fun s2 => MoveInv s2 (allMoves instrs)) ?_ _ _ ?_
  · intro a n ha
    split_ifs <;> exact ha
  · intro m
    simp only [inCount, allMoves]
    simp

/-- C4: the five move sets partition the input moves throughout the loop:
the state after `build`/`makeWorkList` satisfies the partition invariant
(every input move counted exactly once across the five sets, no other move
present), every loop step preserves it, it entails the pairwise disjointness
of the five sets, and at loop exit every move instruction of the input lies
in exactly one of the five sets. -/
theorem move_sets_partition :
    (∀ (M : Machine) (g : IG) (instrs : List Instr) (rc : RegId → Option RegId),
      MoveInv (initState M g instrs rc) (allMoves instrs)) ∧
    (∀ (s s2 : AState) (all : Finset MoveId) (ph : Phase),
      MoveInv s all → loopStep s = .ok (some (ph, s2)) → MoveInv s2 all) ∧
    (∀ (s : AState) (all : Finset MoveId), MoveInv s all →
      (Disjoint s.worklistMoves s.activeMoves ∧
       Disjoint s.worklistMoves s.coalescedMoves ∧
       Disjoint s.worklistMoves s.constrainedMoves ∧
       Disjoint s.worklistMoves s.frozenMoves ∧
       Disjoint s.activeMoves s.coalescedMoves ∧
       Disjoint s.activeMoves s.constrainedMoves ∧
       Disjoint s.activeMoves s.frozenMoves ∧
       Disjoint s.coalescedMoves s.constrainedMoves ∧
       Disjoint s.coalescedMoves s.frozenMoves ∧
       Disjoint s.constrainedMoves s.frozenMoves)) ∧
    (∀ (fuel : Nat) (s : AState) (all : Finset MoveId) (tr : List Phase)
        (s2 : AState), MoveInv s all → runLoop fuel s = .ok (tr, s2) →
      ∀ m ∈ all, inCount s2 m = 1) := by
  refine ⟨initState_minv, fun _ _ _ _ hinv h => loopStep_minv hinv h, ?_, ?_⟩
  · intro s all hinv
    refine ⟨?_, ?_, ?_, ?_, ?_, ?_, ?_, ?_, ?_, ?_⟩ <;>
      (rw [Finset.disjoint_left]
       intro a h1 h2
       have hle := hinv a
       simp [inCount, h1, h2] at hle
       split_ifs at hle <;> omega)
  · intro fuel s all tr s2 hinv h m hm
    have h2 := runLoop_minv fuel hinv h m
    rw [if_pos hm] at h2
    exact h2

/-- C4 witness: the example run — the partition invariant holds after
`makeWorkList`, the initial worklist moves are disjoint from the active
moves, and at loop exit the single input move (id 7, by then coalesced) is
still in exactly one of the five sets. -/
theorem move_sets_partition_witness :
    inCount exRunFinal 7 = 1 ∧
    Disjoint exState.worklistMoves exState.activeMoves := by
  have h1 := move_sets_partition.1 exM exG exInstrs (fun _ => none)
  have hok : (runLoop 20 exState).isOk = true := by decide
  constructor
  · rcases hrun : runLoop 20 exState with e | p
    · rw [hrun] at hok
      simp [Except.isOk, Except.toBool] at hok
    · have h4 := move_sets_partition.2.2.2 20 exState (allMoves exInstrs)
        p.1 p.2 h1 hrun 7 (by decide)
      have hfin : exRunFinal = p.2 := by
        unfold exRunFinal
        rw [hrun]
      rw [hfin]
      exact h4
  · exact (move_sets_partition.2.2.1 exState (allMoves exInstrs) h1).1

end PPCI
